import Mathlib

/-!
Verification of the deterministic sequential rating engine (`rating.py`)
of the ranked-doda repository.

The embedding models the engine's pipeline over explicit lists:
input rows of the joined `v_mmr_inputs` view are filtered and sorted the
way the `v_mmr_ordered` view orders them, grouped by the match key the
engine groups on, and then folded match by match over a mutable ratings
ledger.  Python floats are idealized: quantities that stay rational in
the source (shares, pools before rounding would be, ratings) are modeled
over `ℚ` or generically over a linear ordered field, while quantities
that pass through `log` / `exp` / real powers live in `ℝ`.  Python's
`round` is round-half-to-even, modeled by `roundHalfEven`.
-/

namespace RankedDoda

/-! ### Scalar helpers -/

/-- `np.clip(x, lo, hi) = min(max(x, lo), hi)`. -/
def clipF {α : Type} [LinearOrder α] (x lo hi : α) : α := min (max x lo) hi

/-- Python's `round`: round half to even (banker's rounding), as used by
`int(round(pool_f))` in the source. -/
noncomputable def roundHalfEven (x : ℝ) : ℤ :=
  if Int.fract x < 1 / 2 then ⌊x⌋
  else if 1 / 2 < Int.fract x then ⌊x⌋ + 1
  else if Even ⌊x⌋ then ⌊x⌋ else ⌊x⌋ + 1

/-! ### String ordering (ASCII/codepoint lexicographic, as used by the
`order by` clauses on `team` and `player_name`) -/

/-- Lexicographic strict comparison of character lists by codepoint. -/
def charsLtB : List Char → List Char → Bool
  | [], [] => false
  | [], _ :: _ => true
  | _ :: _, [] => false
  | a :: as, b :: bs =>
    if a.toNat < b.toNat then true
    else if b.toNat < a.toNat then false
    else charsLtB as bs

/-- Strict lexicographic order on strings. -/
def strLtB (s t : String) : Bool := charsLtB s.data t.data

/-! ### Data model -/

/-- One row of the `v_mmr_inputs` view: match columns joined with one
player-performance record (`impact` defaulted to `0` by the join).
Per-player columns that the engine selects but never reads
(`kills`, `deaths`, `assists`, `net_worth`) are omitted. -/
structure Row where
  match_id : ℤ
  date_time : ℤ
  duration_sec : ℤ
  radiant_kills : ℤ
  dire_kills : ℤ
  winning_team : String
  player_name : String
  team : String
  position : ℤ
  impact : ℚ
deriving DecidableEq

/-- The tuple `df.groupby(["match_id", "date_time", "duration_sec",
"radiant_kills", "dire_kills", "winning_team"])` groups on. -/
structure MatchKey where
  match_id : ℤ
  date_time : ℤ
  duration_sec : ℤ
  radiant_kills : ℤ
  dire_kills : ℤ
  winning_team : String
deriving DecidableEq

/-- One output row of the `rating_result` table. -/
structure Event where
  match_id : ℤ
  player_name : String
  pool : ℤ
  th_skew : ℝ
  pr_skew : ℝ
  team_share : ℝ
  rating_before : ℤ
  rating_after : ℤ
  rating_diff : ℤ

/-- `PosMultiplier` dataclass. -/
structure PosMultiplier where
  a : ℚ
  b : ℚ

/-- `MmrConfig` dataclass (floats modeled as `ℚ`). -/
structure MmrConfig where
  initial_mmr : ℤ
  base_pool : ℚ
  pool_gamma : ℚ
  pool_min : ℚ
  pool_max : ℚ
  ref_seconds : ℤ
  th_clip : ℚ
  k_alpha : ℚ
  dur_power : ℚ
  w_th : ℚ
  w_k : ℚ
  merit_weight : ℚ
  map_gamma : ℚ
  team_radiant : String
  team_dire : String
  pos_multiplier : PosMultiplier

/-- `DEFAULT_MMR = MmrConfig()` with the dataclass defaults. -/
def DEFAULT_MMR : MmrConfig :=
  { initial_mmr := 500
    base_pool := 50
    pool_gamma := 25
    pool_min := 25
    pool_max := 400
    ref_seconds := 5400
    th_clip := 2
    k_alpha := 2
    dur_power := 1 / 2
    w_th := 3 / 5
    w_k := 2 / 5
    merit_weight := 4 / 5
    map_gamma := 1
    team_radiant := "radiant"
    team_dire := "dire"
    pos_multiplier := ⟨2, -(1 / 4)⟩ }

/-! ### Canonical ordering and grouping (`_init_mmr_views`) -/

/-- The `where team in ('radiant','dire') and winning_team in
('radiant','dire')` filter of `v_mmr_ordered`. -/
def validRow (r : Row) : Bool :=
  (r.team == "radiant" || r.team == "dire") &&
    (r.winning_team == "radiant" || r.winning_team == "dire")

/-- `order by date_time asc, match_id asc, team asc, position asc` as a
Boolean total preorder on rows. -/
def rowLeB (r1 r2 : Row) : Bool :=
  if r1.date_time ≠ r2.date_time then decide (r1.date_time < r2.date_time)
  else if r1.match_id ≠ r2.match_id then decide (r1.match_id < r2.match_id)
  else if r1.team ≠ r2.team then strLtB r1.team r2.team
  else decide (r1.position ≤ r2.position)

def rowLe (r1 r2 : Row) : Prop := rowLeB r1 r2 = true

instance : DecidableRel rowLe := fun r1 r2 => instDecidableEqBool _ _

/-- The rows of `v_mmr_ordered`: filtered, then stably sorted in the
canonical order. -/
def v_mmr_ordered (rows : List Row) : List Row :=
  List.insertionSort rowLe (rows.filter validRow)

/-- The group key of a row. -/
def rowKey (r : Row) : MatchKey :=
  ⟨r.match_id, r.date_time, r.duration_sec, r.radiant_kills, r.dire_kills,
    r.winning_team⟩

/-- Keys in order of first occurrence (pandas `groupby(..., sort=False)`). -/
def firstKeysAux : List MatchKey → List MatchKey → List MatchKey
  | [], _ => []
  | k :: rest, seen =>
    if k ∈ seen then firstKeysAux rest seen
    else k :: firstKeysAux rest (k :: seen)

def firstKeys (l : List MatchKey) : List MatchKey := firstKeysAux l []

/-- The groups of the groupby: for each key, in first-occurrence order,
all rows of the ordered view with that key (in view order). -/
def groupsOf (rows : List Row) : List (MatchKey × List Row) :=
  let l := v_mmr_ordered rows
  (firstKeys (l.map rowKey)).map
    (fun k => (k, l.filter (fun r => decide (rowKey r = k))))

/-! ### Merit allocation and integer apportionment -/

/-- `m(pos) = a + b * (pos - 1)`. -/
def _pos_mult (pos : ℤ) (cfg : MmrConfig) : ℚ :=
  cfg.pos_multiplier.a + cfg.pos_multiplier.b * ((pos : ℚ) - 1)

/-- `_normalize`: divide by the sum, falling back to the uniform vector
when the sum is `≤ 1e-12`. -/
def _normalize {α : Type} [LinearOrderedField α] (v : List α) : List α :=
  if v.sum ≤ 1 / 10 ^ 12 then v.map (fun _ => 1 / (v.length : α))
  else v.map (fun x => x / v.sum)

/-- `_impact01`: `clip((x + 100) / 200, 0, 1) ** gamma` (real power). -/
noncomputable def _impact01 (x : ℝ) (gamma : ℝ) : ℝ :=
  clipF ((x + 100) / 200) 0 1 ^ gamma

/-- The mapped merit values `_impact01(±impact, map_gamma)` of one roster:
the un-normalized merit vector, also used as the deterministic tie key. -/
noncomputable def meritRawOf (cfg : MmrConfig) (winners : Bool)
    (impacts : List ℚ) : List ℝ :=
  impacts.map (fun im =>
    _impact01 (if winners then ((im : ℚ) : ℝ) else ((-im : ℚ) : ℝ))
      ((cfg.map_gamma : ℚ) : ℝ))

/-- `_shares_winners`: blend of normalized merit with the uniform floor. -/
noncomputable def _shares_winners (s_impact : List ℚ) (cfg : MmrConfig) :
    List ℝ :=
  (_normalize (meritRawOf cfg true s_impact)).map
    (fun m => ((cfg.merit_weight : ℚ) : ℝ) * m +
      (1 - ((cfg.merit_weight : ℚ) : ℝ)) * (1 / (s_impact.length : ℝ)))

/-- `_shares_losers`: same blend on the sign-flipped impacts. -/
noncomputable def _shares_losers (s_impact : List ℚ) (cfg : MmrConfig) :
    List ℝ :=
  (_normalize (meritRawOf cfg false s_impact)).map
    (fun m => ((cfg.merit_weight : ℚ) : ℝ) * m +
      (1 - ((cfg.merit_weight : ℚ) : ℝ)) * (1 / (s_impact.length : ℝ)))

/-- The sort order of the leftover-unit distribution in `_integer_split`:
larger fractional remainder first, then larger tie key, then the original
(ascending) positional index — the order `sort_values`'s stable sort
realizes on the `frac` / `tie` columns. -/
def splitLe {α : Type} [LinearOrderedField α] (frac tie : List α)
    (i j : ℕ) : Prop :=
  frac.getD j 0 < frac.getD i 0 ∨
    (frac.getD i 0 = frac.getD j 0 ∧
      (tie.getD j 0 < tie.getD i 0 ∨
        (tie.getD i 0 = tie.getD j 0 ∧ i ≤ j)))

instance {α : Type} [LinearOrderedField α] (frac tie : List α) :
    DecidableRel (splitLe frac tie) := fun i j => by
  unfold splitLe; infer_instance

/-- `_integer_split`: largest-remainder apportionment of `total` along
`weights`, leftover units to the players first in the `splitLe` order. -/
def _integer_split {α : Type} [LinearOrderedField α] [FloorRing α]
    (weights : List α) (total : ℤ) (tie_key : List α) : List ℤ :=
  let w := _normalize weights
  let raw := w.map (fun x => x * (total : α))
  let base := raw.map (fun x => ⌊x⌋)
  let rem : ℤ := total - base.sum
  if rem ≤ 0 then base
  else
    let frac := (raw.zip base).map (fun p => p.1 - (p.2 : α))
    let ord := List.insertionSort (splitLe frac tie_key)
      (List.range base.length)
    let chosen := ord.take rem.toNat
    (List.range base.length).map
      (fun i => base.getD i 0 + if i ∈ chosen then 1 else 0)

/-! ### The per-match skew / pool computation -/

/-- `th_log = clip(log(R / D), -th_clip, th_clip)`. -/
noncomputable def thLogOf (cfg : MmrConfig) (R D : ℚ) : ℝ :=
  clipF (Real.log ((R : ℝ) / (D : ℝ))) (-((cfg.th_clip : ℚ) : ℝ))
    ((cfg.th_clip : ℚ) : ℝ)

/-- `k_log = shrink * log((rk + k_alpha) / (dk + k_alpha))` with
`shrink = (min(dur, ref_seconds) / ref_seconds) ** dur_power`. -/
noncomputable def kLogOf (cfg : MmrConfig) (rk dk dur : ℤ) : ℝ :=
  (((min dur cfg.ref_seconds : ℤ) : ℝ) / ((cfg.ref_seconds : ℤ) : ℝ)) ^
      ((cfg.dur_power : ℚ) : ℝ) *
    Real.log (((rk : ℝ) + ((cfg.k_alpha : ℚ) : ℝ)) /
      ((dk : ℝ) + ((cfg.k_alpha : ℚ) : ℝ)))

/-- `pool = int(round(clip(base_pool + pool_gamma * |z|, pool_min,
pool_max)))` where `z = w_th * th_log + w_k * k_log`. -/
noncomputable def poolOf (cfg : MmrConfig) (thL kL : ℝ) : ℤ :=
  roundHalfEven (clipF
    (((cfg.base_pool : ℚ) : ℝ) +
      ((cfg.pool_gamma : ℚ) : ℝ) *
        |((cfg.w_th : ℚ) : ℝ) * thL + ((cfg.w_k : ℚ) : ℝ) * kL|)
    ((cfg.pool_min : ℚ) : ℝ) ((cfg.pool_max : ℚ) : ℝ))

/-! ### The ratings ledger fold -/

/-- The mutable `ratings` dict, as a total map with the lazy default
applied on first read. -/
def Ratings : Type := String → ℤ

/-- Writing one player's new rating. -/
def updateRating (rt : Ratings) (n : String) (v : ℤ) : Ratings :=
  fun m => if m = n then v else rt m

/-- One roster's emission loop (`for idx, r in rad.iterrows(): ...`):
rows zipped with their integer units and shares; winners (`sign = true`)
gain their unit, losers lose it; the ledger is written row by row. -/
def applyRoster (mid : ℤ) (pool : ℤ) (th pr : ℝ) (sign : Bool) :
    List (Row × ℤ × ℝ) → Ratings → List Event × Ratings
  | [], rt => ([], rt)
  | (r, unit, share) :: rest, rt =>
    let before := rt r.player_name
    let delta : ℤ := if sign then unit else -unit
    let after := before + delta
    let out := applyRoster mid pool th pr sign rest
      (updateRating rt r.player_name after)
    (⟨mid, r.player_name, pool, th, pr, share, before, after, delta⟩ ::
      out.1, out.2)

/-- The radiant sub-frame of one group. -/
def radOf (cfg : MmrConfig) (g : List Row) : List Row :=
  g.filter (fun r => decide (r.team = cfg.team_radiant))

/-- The dire sub-frame of one group. -/
def direOf (cfg : MmrConfig) (g : List Row) : List Row :=
  g.filter (fun r => decide (r.team = cfg.team_dire))

/-- A team's strength `Σ ratings[p] * m(pos_p)` (exact, in `ℚ`). -/
def strengthOf (cfg : MmrConfig) (rt : Ratings) (roster : List Row) : ℚ :=
  (roster.map (fun r => ((rt r.player_name : ℤ) : ℚ) *
    _pos_mult r.position cfg)).sum

/-- `R = max(Σ ratings * m(pos), 1e-9)` of the radiant roster. -/
def groupR (cfg : MmrConfig) (rt : Ratings) (g : List Row) : ℚ :=
  max (strengthOf cfg rt (radOf cfg g)) (1 / 10 ^ 9)

/-- `D = max(Σ ratings * m(pos), 1e-9)` of the dire roster. -/
def groupD (cfg : MmrConfig) (rt : Ratings) (g : List Row) : ℚ :=
  max (strengthOf cfg rt (direOf cfg g)) (1 / 10 ^ 9)

/-- The theoretical log-skew of one group. -/
noncomputable def groupThLog (cfg : MmrConfig) (rt : Ratings)
    (g : List Row) : ℝ :=
  thLogOf cfg (groupR cfg rt g) (groupD cfg rt g)

/-- The kill-based log-skew of one group. -/
noncomputable def groupKLog (cfg : MmrConfig) (k : MatchKey) : ℝ :=
  kLogOf cfg k.radiant_kills k.dire_kills k.duration_sec

/-- The integer pool of one group. -/
noncomputable def groupPool (cfg : MmrConfig) (rt : Ratings) (k : MatchKey)
    (g : List Row) : ℤ :=
  poolOf cfg (groupThLog cfg rt g) (groupKLog cfg k)

/-- `win_radiant = (win == cfg.team_radiant)`. -/
def groupWinRad (cfg : MmrConfig) (k : MatchKey) : Bool :=
  decide (k.winning_team = cfg.team_radiant)

/-- The body of the per-match loop of `calculate_ranked_mmr`: one group
is either skipped (a side's roster is empty) or processed atomically,
emitting the radiant rows then the dire rows and threading the ledger. -/
noncomputable def processGroup (cfg : MmrConfig) (rt : Ratings)
    (k : MatchKey) (g : List Row) : List Event × Ratings :=
  let rad := radOf cfg g
  let dire := direOf cfg g
  if rad = [] ∨ dire = [] then ([], rt)
  else
    let thL := groupThLog cfg rt g
    let kL := groupKLog cfg k
    let pool := groupPool cfg rt k g
    let winRad : Bool := groupWinRad cfg k
    let radShare := if winRad then _shares_winners (rad.map Row.impact) cfg
      else _shares_losers (rad.map Row.impact) cfg
    let direShare := if winRad then _shares_losers (dire.map Row.impact) cfg
      else _shares_winners (dire.map Row.impact) cfg
    let radTie := meritRawOf cfg winRad (rad.map Row.impact)
    let direTie := meritRawOf cfg (!winRad) (dire.map Row.impact)
    let radUnits := _integer_split radShare pool radTie
    let direUnits := _integer_split direShare pool direTie
    let thS := Real.exp thL
    let prS := Real.exp kL
    let radOut := applyRoster k.match_id pool thS prS winRad
      (rad.zip (radUnits.zip radShare)) rt
    let direOut := applyRoster k.match_id pool thS prS (!winRad)
      (dire.zip (direUnits.zip direShare)) radOut.2
    (radOut.1 ++ direOut.1, direOut.2)

/-- The sequential fold over the groups in canonical order. -/
noncomputable def runGroups (cfg : MmrConfig) :
    Ratings → List (MatchKey × List Row) → List Event
  | _, [] => []
  | rt, (k, g) :: rest =>
    let out := processGroup cfg rt k g
    out.1 ++ runGroups cfg out.2 rest

/-- All rating events of a run, in emission (canonical processing) order. -/
noncomputable def engineEvents (cfg : MmrConfig) (rows : List Row) :
    List Event :=
  runGroups cfg (fun _ => cfg.initial_mmr) (groupsOf rows)

/-- `order by match_id, player_name` of the final `rating_result` table. -/
def evLeB (e1 e2 : Event) : Bool :=
  if e1.match_id ≠ e2.match_id then decide (e1.match_id < e2.match_id)
  else if e1.player_name ≠ e2.player_name then
    strLtB e1.player_name e2.player_name
  else true

def evLe (e1 e2 : Event) : Prop := evLeB e1 e2 = true

instance : DecidableRel evLe := fun e1 e2 => instDecidableEqBool _ _

/-- `calculate_ranked_mmr`: the full engine, producing the rows of the
`rating_result` table in table order. -/
noncomputable def calculate_ranked_mmr (cfg : MmrConfig) (rows : List Row) :
    List Event :=
  List.insertionSort evLe (engineEvents cfg rows)

/-- The configuration validity predicate of the spec's error taxonomy: a
positive pool range and a merit weight in `[0, 1]`.  (Modelled from the
spec: the source defines no configuration check; this predicate names the
condition the spec's *ConfigurationError* describes.) -/
def configValid (cfg : MmrConfig) : Prop :=
  cfg.pool_min < cfg.pool_max ∧ 0 ≤ cfg.merit_weight ∧ cfg.merit_weight ≤ 1

instance (cfg : MmrConfig) : Decidable (configValid cfg) := by
  unfold configValid; infer_instance

/-- Replaying a list of events onto the ledger: each event writes its
`rating_after` to its player. -/
def applyEvents (rt : Ratings) : List Event → Ratings
  | [] => rt
  | e :: rest => applyEvents (updateRating rt e.player_name e.rating_after) rest

/-- The ledger-continuity invariant of an event sequence: every event
reads as `rating_before` exactly the ledger value of its player at that
point, the ledger then holding its `rating_after`. -/
def ChainedFrom (rt : Ratings) : List Event → Prop
  | [] => True
  | e :: rest => e.rating_before = rt e.player_name ∧
      ChainedFrom (updateRating rt e.player_name e.rating_after) rest

/-- The per-player continuity chain: the first event starts at `v`, and
each event's `rating_after` is the next event's `rating_before`. -/
def PlayerChain (v : ℤ) : List Event → Prop
  | [] => True
  | e :: rest => e.rating_before = v ∧ PlayerChain e.rating_after rest

/-- How many rating events one group contributes: none when skipped,
otherwise one per roster player on both sides. -/
def groupEmitCount (cfg : MmrConfig) (g : List Row) : ℕ :=
  if radOf cfg g = [] ∨ direOf cfg g = [] then 0
  else (radOf cfg g).length + (direOf cfg g).length

/-- Total number of events a run emits, computed from the roster
structure alone. -/
def emittedCount (cfg : MmrConfig) (rows : List Row) : ℕ :=
  ((groupsOf rows).map (fun p => groupEmitCount cfg p.2)).sum

/-- The lexicographic sort key of a row, into a Mathlib `Lex` product:
`(date_time, match_id, team codepoints, position)`. -/
def sortKeyRow (r : Row) : ℤ ×ₗ (ℤ ×ₗ ((List ℕ) ×ₗ ℤ)) :=
  toLex (r.date_time, toLex (r.match_id,
    toLex (r.team.data.map Char.toNat, r.position)))

/-- The lexicographic sort key of an output event:
`(match_id, player_name codepoints)`. -/
def sortKeyEv (e : Event) : ℤ ×ₗ (List ℕ) :=
  toLex (e.match_id, e.player_name.data.map Char.toNat)

/-! ### Concrete fixtures used in the analysis -/

/-- A 3v3 match with every impact `0`, equal kill counts, and radiant
roster `zed`, `amy`, `bob` in position order: all shares and tie keys
coincide, so the apportionment's final tie-break decides who gets the
two leftover units. -/
def exGroupC4 : List Row :=
  [⟨9, 0, 1800, 5, 5, "radiant", "zed", "radiant", 1, 0⟩,
   ⟨9, 0, 1800, 5, 5, "radiant", "amy", "radiant", 2, 0⟩,
   ⟨9, 0, 1800, 5, 5, "radiant", "bob", "radiant", 3, 0⟩,
   ⟨9, 0, 1800, 5, 5, "radiant", "carl", "dire", 1, 0⟩,
   ⟨9, 0, 1800, 5, 5, "radiant", "dan", "dire", 2, 0⟩,
   ⟨9, 0, 1800, 5, 5, "radiant", "eve", "dire", 3, 0⟩]

def exKeyC4 : MatchKey := ⟨9, 0, 1800, 5, 5, "radiant"⟩

/-- A minimal 1v1 input: one match, `alice` (radiant, position 1) versus
`bob` (dire, position 1), equal kills, zero impacts, radiant wins. -/
def exRows1v1 : List Row :=
  [⟨11, 0, 1800, 5, 5, "radiant", "alice", "radiant", 1, 0⟩,
   ⟨11, 0, 1800, 5, 5, "radiant", "bob", "dire", 1, 0⟩]

def exKey1v1 : MatchKey := ⟨11, 0, 1800, 5, 5, "radiant"⟩

/-- The rows of `exRows1v1` in view order (`'dire' < 'radiant'`). -/
def exSorted1v1 : List Row :=
  [⟨11, 0, 1800, 5, 5, "radiant", "bob", "dire", 1, 0⟩,
   ⟨11, 0, 1800, 5, 5, "radiant", "alice", "radiant", 1, 0⟩]

/-- An invalid configuration: `merit_weight = 2` lies outside `[0, 1]`. -/
def cfgC6 : MmrConfig := { DEFAULT_MMR with merit_weight := 2 }

/-- A configuration with the non-integer pool bounds
`pool_min = pool_max = 25.4`. -/
def cfgC8 : MmrConfig :=
  { DEFAULT_MMR with pool_min := 127 / 5, pool_max := 127 / 5 }

/-- A one-match input in which the player-performance rows do not have
pairwise-distinct canonical sort keys: `bob` appears twice on radiant at
position 1 (impacts `+100` and `-100`), against `carl` and `dave` on
dire.  `exRowsC5a` and `exRowsC5b` present the same set of records, with
the two `bob` rows swapped. -/
def exRowsC5a : List Row :=
  [⟨21, 0, 1800, 7, 7, "radiant", "bob", "radiant", 1, 100⟩,
   ⟨21, 0, 1800, 7, 7, "radiant", "bob", "radiant", 1, -100⟩,
   ⟨21, 0, 1800, 7, 7, "radiant", "carl", "dire", 1, 0⟩,
   ⟨21, 0, 1800, 7, 7, "radiant", "dave", "dire", 1, 0⟩]

def exRowsC5b : List Row :=
  [⟨21, 0, 1800, 7, 7, "radiant", "bob", "radiant", 1, -100⟩,
   ⟨21, 0, 1800, 7, 7, "radiant", "bob", "radiant", 1, 100⟩,
   ⟨21, 0, 1800, 7, 7, "radiant", "carl", "dire", 1, 0⟩,
   ⟨21, 0, 1800, 7, 7, "radiant", "dave", "dire", 1, 0⟩]

def exKeyC5 : MatchKey := ⟨21, 0, 1800, 7, 7, "radiant"⟩

/-- The view order of `exRowsC5a` (dire rows first, stable within ties). -/
def exSortedC5a : List Row :=
  [⟨21, 0, 1800, 7, 7, "radiant", "carl", "dire", 1, 0⟩,
   ⟨21, 0, 1800, 7, 7, "radiant", "dave", "dire", 1, 0⟩,
   ⟨21, 0, 1800, 7, 7, "radiant", "bob", "radiant", 1, 100⟩,
   ⟨21, 0, 1800, 7, 7, "radiant", "bob", "radiant", 1, -100⟩]

/-- The view order of `exRowsC5b`. -/
def exSortedC5b : List Row :=
  [⟨21, 0, 1800, 7, 7, "radiant", "carl", "dire", 1, 0⟩,
   ⟨21, 0, 1800, 7, 7, "radiant", "dave", "dire", 1, 0⟩,
   ⟨21, 0, 1800, 7, 7, "radiant", "bob", "radiant", 1, -100⟩,
   ⟨21, 0, 1800, 7, 7, "radiant", "bob", "radiant", 1, 100⟩]

/-- The events the engine emits for `exRowsC5a`, in emission order. -/
noncomputable def exEventsC5a : List Event :=
  [⟨21, "bob", 50, Real.exp 0, Real.exp 0, 9 / 10, 500, 545, 45⟩,
   ⟨21, "bob", 50, Real.exp 0, Real.exp 0, 1 / 10, 545, 550, 5⟩,
   ⟨21, "carl", 50, Real.exp 0, Real.exp 0, 1 / 2, 500, 475, -25⟩,
   ⟨21, "dave", 50, Real.exp 0, Real.exp 0, 1 / 2, 500, 475, -25⟩]

/-- The events the engine emits for `exRowsC5b`, in emission order. -/
noncomputable def exEventsC5b : List Event :=
  [⟨21, "bob", 50, Real.exp 0, Real.exp 0, 1 / 10, 500, 505, 5⟩,
   ⟨21, "bob", 50, Real.exp 0, Real.exp 0, 9 / 10, 505, 550, 45⟩,
   ⟨21, "carl", 50, Real.exp 0, Real.exp 0, 1 / 2, 500, 475, -25⟩,
   ⟨21, "dave", 50, Real.exp 0, Real.exp 0, 1 / 2, 500, 475, -25⟩]

/-! ## Lemmas: scalar helpers -/

lemma clipF_eq_self {α : Type} [LinearOrder α] {x lo hi : α} (h1 : lo ≤ x)
    (h2 : x ≤ hi) : clipF x lo hi = x := by
  unfold clipF
  rw [max_eq_left h1, min_eq_left h2]

lemma clipF_le_hi {α : Type} [LinearOrder α] (x lo hi : α) :
    clipF x lo hi ≤ hi := min_le_right _ _

lemma lo_le_clipF {α : Type} [LinearOrder α] {lo hi : α} (x : α)
    (h : lo ≤ hi) : lo ≤ clipF x lo hi :=
  le_min (le_max_right _ _) h

lemma roundHalfEven_le (x : ℝ) : (roundHalfEven x : ℝ) ≤ x + 1 / 2 := by
  have hf := Int.floor_add_fract x
  have hnn := Int.fract_nonneg x
  have hlt := Int.fract_lt_one x
  unfold roundHalfEven
  split_ifs <;> push_cast <;> linarith

lemma le_roundHalfEven (x : ℝ) : x - 1 / 2 ≤ (roundHalfEven x : ℝ) := by
  have hf := Int.floor_add_fract x
  have hnn := Int.fract_nonneg x
  have hlt := Int.fract_lt_one x
  unfold roundHalfEven
  split_ifs <;> push_cast <;> linarith

lemma roundHalfEven_of_fract_lt (x : ℝ) (h : Int.fract x < 1 / 2) :
    roundHalfEven x = ⌊x⌋ := by
  rw [roundHalfEven, if_pos h]

lemma roundHalfEven_intCast (n : ℤ) : roundHalfEven (n : ℝ) = n := by
  rw [roundHalfEven_of_fract_lt _ (by norm_num [Int.fract_intCast]),
    Int.floor_intCast]

/-! ## Lemmas: list sums -/

lemma sum_map_div {α : Type} [LinearOrderedField α] (l : List α) (s : α) :
    (l.map (fun x => x / s)).sum = l.sum / s := by
  induction l with
  | nil => simp
  | cons a t ih => simp [ih, add_div]

lemma sum_map_add_map {α : Type} [AddCommMonoid α] {ι : Type}
    (l : List ι) (f g : ι → α) :
    (l.map (fun i => f i + g i)).sum = (l.map f).sum + (l.map g).sum := by
  induction l with
  | nil => simp
  | cons a t ih => simp only [List.map_cons, List.sum_cons, ih]; abel

lemma sum_map_ite_mem (l chosen : List ℕ) :
    (l.map (fun i => if i ∈ chosen then (1 : ℤ) else 0)).sum =
      ((l.filter (fun i => decide (i ∈ chosen))).length : ℤ) := by
  induction l with
  | nil => simp
  | cons a t ih =>
    by_cases h : a ∈ chosen <;>
      simp [List.filter_cons, h, ih, add_comm]

lemma map_getD_range {α : Type} (l : List α) (d : α) :
    (List.range l.length).map (fun i => l.getD i d) = l := by
  induction l with
  | nil => simp
  | cons a t ih =>
    rw [List.length_cons, List.range_succ_eq_map, List.map_cons,
      List.map_map]
    simp only [List.getD_cons_zero, Function.comp_def, List.getD_cons_succ]
    rw [ih]

/-! ## Lemmas: `_normalize` -/

lemma _normalize_length {α : Type} [LinearOrderedField α] (v : List α) :
    (_normalize v).length = v.length := by
  unfold _normalize
  split_ifs <;> simp

lemma _normalize_sum {α : Type} [LinearOrderedField α] {v : List α}
    (h : v ≠ []) : (_normalize v).sum = 1 := by
  have hlen : v.length ≠ 0 := fun hc => h (List.length_eq_zero.mp hc)
  have hlen0 : ((v.length : α)) ≠ 0 := Nat.cast_ne_zero.mpr hlen
  unfold _normalize
  split_ifs with hs
  · rw [List.map_const', List.sum_replicate, nsmul_eq_mul]
    field_simp
  · rw [sum_map_div, div_self]
    intro hc
    rw [hc] at hs
    exact hs (by positivity)

lemma _normalize_nonneg {α : Type} [LinearOrderedField α] {v : List α}
    (h : ∀ x ∈ v, 0 ≤ x) : ∀ y ∈ _normalize v, 0 ≤ y := by
  intro y hy
  unfold _normalize at hy
  split_ifs at hy with hs
  · rcases List.mem_map.mp hy with ⟨x, _, rfl⟩
    positivity
  · rcases List.mem_map.mp hy with ⟨x, hx, rfl⟩
    have hsum : (0 : α) < v.sum := lt_of_le_of_lt (by positivity) (not_le.mp hs)
    exact div_nonneg (h x hx) hsum.le

lemma _normalize_const {α : Type} [LinearOrderedField α] {v : List α}
    {c : α} (h : v ≠ []) (hc : ∀ x ∈ v, x = c) :
    _normalize v = v.map (fun _ => 1 / (v.length : α)) := by
  have hlen : v.length ≠ 0 := fun hx => h (List.length_eq_zero.mp hx)
  have hlen0 : ((v.length : α)) ≠ 0 := Nat.cast_ne_zero.mpr hlen
  have hvsum : v.sum = (v.length : α) * c := by
    have : v = v.map (fun _ => c) := by
      conv_lhs => rw [show v = v.map id by simp]
      exact List.map_congr_left fun x hx => hc x hx
    rw [this, List.map_const', List.sum_replicate, nsmul_eq_mul]
    simp
  unfold _normalize
  split_ifs with hs
  · rfl
  · have hc0 : c ≠ 0 := by
      intro h0
      rw [h0, mul_zero] at hvsum
      rw [hvsum] at hs
      exact hs (by positivity)
    apply List.map_congr_left
    intro x hx
    rw [hc x hx, hvsum]
    field_simp
    ring

/-! ## Lemmas: `_integer_split` -/

lemma zip_map_self {α β γ : Type} (l : List α) (f : α → β) (g : α → β → γ) :
    ((l.zip (l.map f)).map (fun p => g p.1 p.2)) = l.map (fun x => g x (f x)) := by
  induction l with
  | nil => simp
  | cons a t ih => simp [ih]

lemma getD_eq_of_mem_const {α : Type} {l : List α} {c : α} {i : ℕ}
    (hall : ∀ x ∈ l, x = c) (hi : i < l.length) (d : α) : l.getD i d = c := by
  rw [List.getD_eq_getElem l d hi]
  exact hall _ (List.getElem_mem hi)

lemma getD_nonneg {l : List ℤ} (h : ∀ x ∈ l, 0 ≤ x) (i : ℕ) :
    0 ≤ l.getD i 0 := by
  rcases lt_or_ge i l.length with hi | hi
  · rw [List.getD_eq_getElem l 0 hi]
    exact h _ (List.getElem_mem hi)
  · rw [List.getD_eq_default l 0 hi]

lemma filter_mem_length_eq {chosen l : List ℕ} (hc : chosen.Nodup)
    (hl : l.Nodup) (hsub : ∀ i ∈ chosen, i ∈ l) :
    (l.filter (fun i => decide (i ∈ chosen))).length = chosen.length := by
  apply List.Perm.length_eq
  rw [List.perm_ext_iff_of_nodup (hl.filter _) hc]
  intro a
  simp only [List.mem_filter, decide_eq_true_eq]
  exact ⟨fun h => h.2, fun h => ⟨hsub a h, h⟩⟩

lemma floor_intCast_div_natCast {α : Type} [LinearOrderedField α]
    [FloorRing α] (m : ℤ) (n : ℕ) : ⌊(m : α) / (n : α)⌋ = m / (n : ℤ) := by
  rw [show ((m : α)) = (((m : ℚ)) : α) by push_cast; ring,
    show ((n : α)) = (((n : ℚ)) : α) by push_cast; ring,
    ← Rat.cast_div, Rat.floor_cast, Rat.floor_intCast_div_natCast]

lemma _integer_split_length {α : Type} [LinearOrderedField α] [FloorRing α]
    (weights : List α) (total : ℤ) (tie_key : List α) :
    (_integer_split weights total tie_key).length = weights.length := by
  simp only [_integer_split]
  split_ifs <;> simp [_normalize_length]

lemma _integer_split_sum {α : Type} [LinearOrderedField α] [FloorRing α]
    {weights : List α} (h : weights ≠ []) (total : ℤ) (tie_key : List α) :
    (_integer_split weights total tie_key).sum = total := by
  have hn : 0 < weights.length := List.length_pos.mpr h
  simp only [_integer_split]
  set w := _normalize weights with hw
  have hwsum : w.sum = 1 := _normalize_sum h
  set raw := w.map (fun x => x * (total : α)) with hraw
  have hrawlen : raw.length = weights.length := by
    rw [hraw, List.length_map, hw, _normalize_length]
  have hrawne : raw ≠ [] := by
    intro hc
    rw [hc] at hrawlen
    simp at hrawlen
    omega
  have hrawsum : raw.sum = (total : α) := by
    rw [hraw, List.sum_map_mul_right]
    simp [hwsum]
  set base := raw.map (fun x => ⌊x⌋) with hbase
  have hbaselen : base.length = weights.length := by
    rw [hbase, List.length_map, hrawlen]
  have hcastsum : ∀ l : List ℤ, ((l.sum : ℤ) : α) = (l.map (fun z => ((z : ℤ) : α))).sum := by
    intro l
    induction l with
    | nil => simp
    | cons a t ih => push_cast; push_cast at ih; rw [List.map_cons, List.sum_cons, ← ih]
  have hbasecast : ((base.sum : ℤ) : α) = (raw.map (fun x => ((⌊x⌋ : ℤ) : α))).sum := by
    rw [hbase, hcastsum, List.map_map]
    rfl
  have hbasesum : base.sum ≤ total := by
    have h1 : ((base.sum : ℤ) : α) ≤ (total : α) := by
      rw [hbasecast, ← hrawsum,
        show raw.sum = (raw.map (fun x => x)).sum by simp]
      apply List.sum_le_sum
      intro i _
      exact Int.floor_le i
    exact_mod_cast h1
  split_ifs with hrem
  · have : total - base.sum = 0 := le_antisymm hrem (by omega)
    omega
  · push_neg at hrem
    set rem : ℤ := total - base.sum with hremdef
    set frac := (raw.zip base).map (fun p => p.1 - ((p.2 : ℤ) : α)) with hfrac
    have hfraceq : frac = raw.map (fun x => x - ((⌊x⌋ : ℤ) : α)) := by
      rw [hfrac, hbase]
      exact zip_map_self raw (fun x => ⌊x⌋) (fun x b => x - ((b : ℤ) : α))
    have hfracsum : frac.sum = (rem : α) := by
      rw [hfraceq, hremdef]
      push_cast
      rw [show (fun x : α => x - ((⌊x⌋ : ℤ) : α)) =
        fun x : α => x + (-((⌊x⌋ : ℤ) : α)) by funext x; ring]
      rw [sum_map_add_map]
      simp only [List.map_id']
      rw [hrawsum]
      have : (raw.map (fun x : α => -((⌊x⌋ : ℤ) : α))).sum =
          -((raw.map (fun x : α => ((⌊x⌋ : ℤ) : α))).sum) := by
        induction raw with
        | nil => simp
        | cons a t ih => simp [ih]; ring
      rw [this, ← hbasecast]
      push_cast
      ring
    have hfraclt : frac.sum < (weights.length : α) := by
      rw [hfraceq]
      have h2 : ((raw.map (fun _ => (1 : α))).sum) = (raw.length : α) := by
        rw [List.map_const', List.sum_replicate, nsmul_eq_mul, mul_one]
      calc (raw.map (fun x => x - ((⌊x⌋ : ℤ) : α))).sum
          < (raw.map (fun _ => (1 : α))).sum := by
            apply List.sum_lt_sum
            · intro i _
              have := Int.sub_one_lt_floor i
              linarith
            · rcases List.exists_mem_of_ne_nil raw hrawne with ⟨x, hx⟩
              refine ⟨x, hx, ?_⟩
              have := Int.sub_one_lt_floor x
              linarith
        _ = (weights.length : α) := by rw [h2, hrawlen]
    have hremlt : rem < weights.length := by
      have : (rem : α) < (weights.length : α) := by
        rw [← hfracsum]; exact hfraclt
      exact_mod_cast this
    set ord := List.insertionSort (splitLe frac tie_key)
      (List.range base.length) with hord
    have hordperm : ord.Perm (List.range base.length) :=
      List.perm_insertionSort _ _
    have hordlen : ord.length = base.length := by
      rw [hordperm.length_eq, List.length_range]
    have hordnodup : ord.Nodup := hordperm.nodup_iff.mpr (List.nodup_range _)
    set chosen := ord.take rem.toNat with hchosen
    have hchosennodup : chosen.Nodup := hordnodup.sublist (List.take_sublist _ _)
    have hchosensub : ∀ i ∈ chosen, i ∈ List.range base.length := by
      intro i hi
      exact hordperm.subset (List.take_subset _ _ hi)
    have hchosenlen : chosen.length = rem.toNat := by
      rw [hchosen, List.length_take, hordlen, hbaselen]
      omega
    rw [sum_map_add_map]
    rw [map_getD_range base 0]
    rw [sum_map_ite_mem]
    rw [filter_mem_length_eq hchosennodup (List.nodup_range _) hchosensub]
    rw [hchosenlen]
    omega

lemma _integer_split_nonneg {α : Type} [LinearOrderedField α] [FloorRing α]
    {weights : List α} (hw : ∀ x ∈ weights, 0 ≤ x) {total : ℤ}
    (ht : 0 ≤ total) (tie_key : List α) :
    ∀ a ∈ _integer_split weights total tie_key, 0 ≤ a := by
  intro a ha
  simp only [_integer_split] at ha
  have hbase : ∀ b ∈ ((_normalize weights).map
      (fun x => x * (total : α))).map (fun x => ⌊x⌋), 0 ≤ b := by
    intro b hb
    rcases List.mem_map.mp hb with ⟨x, hx, rfl⟩
    rcases List.mem_map.mp hx with ⟨y, hy, rfl⟩
    have hy0 : 0 ≤ y := _normalize_nonneg hw y hy
    exact Int.floor_nonneg.mpr (by positivity)
  split_ifs at ha with hrem
  · exact hbase a ha
  · rcases List.mem_map.mp ha with ⟨i, _, rfl⟩
    have h1 : 0 ≤ (((_normalize weights).map (fun x => x * (total : α))).map
        (fun x => ⌊x⌋)).getD i 0 := getD_nonneg hbase i
    positivity

/-- On a team whose shares and tie keys are all equal, `_integer_split`
gives everybody `total / n` and hands the `total % n` leftover units to
the players with the smallest positional indices — the input row order,
not any name-derived order. -/
lemma _integer_split_const {α : Type} [LinearOrderedField α] [FloorRing α]
    {weights tie_key : List α} {c d : α} (h : weights ≠ [])
    (hc : ∀ x ∈ weights, x = c) (htl : tie_key.length = weights.length)
    (htc : ∀ t ∈ tie_key, t = d) (total : ℤ) :
    _integer_split weights total tie_key =
      (List.range weights.length).map
        (fun (i : ℕ) => total / (weights.length : ℤ) +
          if (i : ℤ) < total % (weights.length : ℤ) then 1 else 0) := by
  have hn : 0 < weights.length := List.length_pos.mpr h
  set n := weights.length with hnn
  set q : ℤ := total / (n : ℤ) with hq
  have hwrep : weights = List.replicate n c := List.eq_replicate_of_mem hc
  have htrep : tie_key = List.replicate n d := by
    rw [← htl] at *
    exact List.eq_replicate_of_mem htc
  have hfloorq : ⌊(1 / (n : α)) * ((total : ℤ) : α)⌋ = q := by
    rw [one_div, inv_mul_eq_div, floor_intCast_div_natCast]
  have hnorm : _normalize weights = List.replicate n (1 / (n : α)) := by
    rw [_normalize_const h hc, hwrep]
    simp [List.map_replicate]
  have hmod : total - (n : ℤ) * q = total % (n : ℤ) := by
    rw [hq, Int.emod_def]
  simp only [_integer_split]
  rw [hnorm, List.map_replicate, List.map_replicate, hfloorq,
    List.sum_replicate, nsmul_eq_mul]
  have hbaselen : (List.replicate n q).length = n := List.length_replicate n q
  split_ifs with hr
  · have h0 : total % (n : ℤ) = 0 := by
      have := Int.emod_nonneg total (show ((n : ℤ)) ≠ 0 by positivity)
      omega
    have hite : ∀ i : ℕ, (if ((i : ℤ)) < total % (n : ℤ) then (1 : ℤ) else 0) = 0 := by
      intro i
      rw [if_neg]
      omega
    calc List.replicate n q
        = (List.range n).map (fun (_ : ℕ) => q) := by
          rw [List.map_const', List.length_range]
      _ = (List.range n).map (fun (i : ℕ) => q +
            if ((i : ℤ)) < total % (n : ℤ) then 1 else 0) := by
          apply List.map_congr_left
          intro i _
          rw [hite i, add_zero]
  · have hremnn : 0 ≤ total % (n : ℤ) := Int.emod_nonneg total (by positivity)
    have hremlt : total % (n : ℤ) < n := Int.emod_lt_of_pos total (by positivity)
    have hfracrep : (List.replicate n ((1 / (n : α)) * ((total : ℤ) : α))).zip
        (List.replicate n q) = List.replicate n ((1 / (n : α)) * ((total : ℤ) : α), q) := by
      rw [List.zip_replicate, min_self]
    rw [hfracrep, List.map_replicate, htrep, hbaselen]
    have hsorted : List.Sorted
        (splitLe (List.replicate n ((1 / (n : α)) * ((total : ℤ) : α) - ((q : ℤ) : α)))
          (List.replicate n d)) (List.range n) := by
      apply List.Pairwise.imp_of_mem ?_ (List.pairwise_lt_range n)
      intro a b ha hb hab
      have hga : (List.replicate n ((1 / (n : α)) * ((total : ℤ) : α) - ((q : ℤ) : α))).getD a 0 =
          (1 / (n : α)) * ((total : ℤ) : α) - ((q : ℤ) : α) :=
        getD_eq_of_mem_const (fun x hx => List.eq_of_mem_replicate hx)
          (by simpa using List.mem_range.mp ha) 0
      have hgb : (List.replicate n ((1 / (n : α)) * ((total : ℤ) : α) - ((q : ℤ) : α))).getD b 0 =
          (1 / (n : α)) * ((total : ℤ) : α) - ((q : ℤ) : α) :=
        getD_eq_of_mem_const (fun x hx => List.eq_of_mem_replicate hx)
          (by simpa using List.mem_range.mp hb) 0
      have hta : (List.replicate n d).getD a 0 = d :=
        getD_eq_of_mem_const (fun x hx => List.eq_of_mem_replicate hx)
          (by simpa using List.mem_range.mp ha) 0
      have htb : (List.replicate n d).getD b 0 = d :=
        getD_eq_of_mem_const (fun x hx => List.eq_of_mem_replicate hx)
          (by simpa using List.mem_range.mp hb) 0
      right
      rw [hga, hgb, hta, htb]
      exact ⟨rfl, Or.inr ⟨rfl, le_of_lt hab⟩⟩
    rw [List.Sorted.insertionSort_eq hsorted, List.take_range]
    apply List.map_congr_left
    intro i hi
    have hiq : (List.replicate n q).getD i 0 = q :=
      getD_eq_of_mem_const (fun x hx => List.eq_of_mem_replicate hx)
        (by simpa using List.mem_range.mp hi) 0
    rw [hiq]
    congr 1
    have hmem : i ∈ List.range ((total - (n : ℤ) * q).toNat ⊓ n) ↔
        ((i : ℤ)) < total % (n : ℤ) := by
      rw [List.mem_range]
      omega
    by_cases hcase : ((i : ℤ)) < total % (n : ℤ)
    · rw [if_pos (hmem.mpr hcase), if_pos hcase]
    · rw [if_neg (fun hx => hcase (hmem.mp hx)), if_neg hcase]

/-! ## Lemmas: string and row ordering -/

lemma char_toNat_injective : Function.Injective Char.toNat := by
  intro a b h
  have h1 : a.val.toNat = b.val.toNat := h
  have hv : a.val = b.val := by
    apply UInt32.eq_of_toBitVec_eq
    apply BitVec.eq_of_toNat_eq
    simpa [UInt32.toNat] using h1
  exact Char.ext hv

lemma lex_cons_inv {x y : ℕ} {l1 l2 : List ℕ}
    (h : List.Lex (· < ·) (x :: l1) (y :: l2)) :
    x < y ∨ (x = y ∧ List.Lex (· < ·) l1 l2) := by
  cases h with
  | rel h3 => exact Or.inl h3
  | cons h3 => exact Or.inr ⟨rfl, h3⟩

lemma charsLtB_iff_lex :
    ∀ (as bs : List Char), charsLtB as bs = true ↔
      List.Lex (· < ·) (as.map Char.toNat) (bs.map Char.toNat)
  | [], [] => by
    simp only [charsLtB, List.map_nil]
    constructor
    · intro h
      simp at h
    · intro h
      cases h
  | [], b :: bs => by
    simp only [charsLtB, List.map_nil, List.map_cons]
    exact ⟨fun _ => List.Lex.nil, fun _ => by trivial⟩
  | a :: as, [] => by
    simp only [charsLtB, List.map_nil, List.map_cons]
    constructor
    · intro h
      simp at h
    · intro h
      cases h
  | a :: as, b :: bs => by
    simp only [charsLtB, List.map_cons]
    split_ifs with h1 h2
    · exact ⟨fun _ => List.Lex.rel h1, fun _ => by trivial⟩
    · constructor
      · intro h
        simp at h
      · intro h
        rcases lex_cons_inv h with h3 | ⟨h3, -⟩ <;> omega
    · have hab : a.toNat = b.toNat := by omega
      have ha : a = b := char_toNat_injective hab
      subst ha
      constructor
      · intro h
        exact List.Lex.cons ((charsLtB_iff_lex as bs).mp h)
      · intro h
        rcases lex_cons_inv h with h3 | ⟨-, h3⟩
        · omega
        · exact (charsLtB_iff_lex as bs).mpr h3

lemma listNat_lt_iff (k1 k2 : List ℕ) :
    k1 < k2 ↔ List.Lex (· < ·) k1 k2 := Iff.rfl

lemma strLtB_iff (s t : String) : strLtB s t = true ↔
    (s.data.map Char.toNat) < (t.data.map Char.toNat) := by
  rw [strLtB, charsLtB_iff_lex, listNat_lt_iff]

lemma strKey_inj {s t : String}
    (h : s.data.map Char.toNat = t.data.map Char.toNat) : s = t := by
  apply String.ext
  exact List.map_injective_iff.mpr char_toNat_injective h

lemma rowLe_iff (r1 r2 : Row) : rowLe r1 r2 ↔ sortKeyRow r1 ≤ sortKeyRow r2 := by
  unfold rowLe rowLeB sortKeyRow
  rw [Prod.Lex.le_iff, Prod.Lex.le_iff, Prod.Lex.le_iff]
  dsimp only
  split_ifs with h1 h2 h3
  · simp only [decide_eq_true_eq]
    constructor
    · exact fun h => Or.inl h
    · intro h
      rcases h with h | ⟨he, -⟩
      · exact h
      · exact absurd he h1
  · push_neg at h1
    simp only [decide_eq_true_eq]
    constructor
    · exact fun h => Or.inr ⟨h1, Or.inl h⟩
    · intro h
      rcases h with h | ⟨-, h | ⟨he, -⟩⟩
      · omega
      · exact h
      · exact absurd he h2
  · push_neg at h1 h2
    rw [strLtB_iff]
    constructor
    · exact fun h => Or.inr ⟨h1, Or.inr ⟨h2, Or.inl h⟩⟩
    · intro h
      rcases h with h | ⟨-, h | ⟨-, h | ⟨he, -⟩⟩⟩
      · omega
      · omega
      · exact h
      · exact absurd (strKey_inj he) h3
  · push_neg at h1 h2 h3
    simp only [decide_eq_true_eq]
    constructor
    · exact fun h => Or.inr ⟨h1, Or.inr ⟨h2, Or.inr ⟨by rw [h3], h⟩⟩⟩
    · intro h
      rcases h with h | ⟨-, h | ⟨-, h | ⟨-, h⟩⟩⟩
      · omega
      · omega
      · rw [h3] at h
        exact absurd h (lt_irrefl _)
      · exact h

instance : IsTotal Row rowLe :=
  ⟨fun a b => by
    rw [rowLe_iff, rowLe_iff]
    exact le_total _ _⟩

instance : IsTrans Row rowLe :=
  ⟨fun a b c hab hbc => by
    rw [rowLe_iff] at *
    exact le_trans hab hbc⟩

lemma sortKeyRow_eq_of_antisymm {a b : Row} (h1 : rowLe a b) (h2 : rowLe b a) :
    sortKeyRow a = sortKeyRow b := by
  rw [rowLe_iff] at h1 h2
  exact le_antisymm h1 h2

/-- The sort key determines the four ordering columns of a row. -/
lemma sortKeyRow_fields {a b : Row} (h : sortKeyRow a = sortKeyRow b) :
    a.date_time = b.date_time ∧ a.match_id = b.match_id ∧
      a.team = b.team ∧ a.position = b.position := by
  unfold sortKeyRow at h
  have h1 := (toLex_inj).mp h
  have h2 := Prod.ext_iff.mp h1
  have h3 := (toLex_inj).mp h2.2
  have h4 := Prod.ext_iff.mp h3
  have h5 := (toLex_inj).mp h4.2
  have h6 := Prod.ext_iff.mp h5
  exact ⟨h2.1, h4.1, strKey_inj h6.1, h6.2⟩

/-- Two sorted lists that are permutations of one another agree, provided
the order relation is antisymmetric on the elements involved. -/
lemma eq_of_perm_of_sorted_of_antisymm {α : Type} {r : α → α → Prop} :
    ∀ {l1 l2 : List α}, l1.Perm l2 → List.Sorted r l1 → List.Sorted r l2 →
      (∀ a ∈ l1, ∀ b ∈ l1, r a b → r b a → a = b) → l1 = l2
  | [], l2, hp, _, _, _ => (hp.nil_eq).symm ▸ rfl
  | a :: t1, [], hp, _, _, _ => absurd hp.symm.nil_eq (by simp)
  | a :: t1, b :: t2, hp, hs1, hs2, hanti => by
    have hab : a = b := by
      by_cases hcase : a = b
      · exact hcase
      · have ha2 : a ∈ b :: t2 := hp.subset (List.mem_cons_self a t1)
        have hb1 : b ∈ a :: t1 := hp.symm.subset (List.mem_cons_self b t2)
        have hat2 : a ∈ t2 := by
          rcases List.mem_cons.mp ha2 with h | h
          · exact absurd h hcase
          · exact h
        have hbt1 : b ∈ t1 := by
          rcases List.mem_cons.mp hb1 with h | h
          · exact absurd h.symm hcase
          · exact h
        have hrab : r a b := List.rel_of_sorted_cons hs1 b hbt1
        have hrba : r b a := List.rel_of_sorted_cons hs2 a hat2
        exact hanti a (List.mem_cons_self a t1) b (List.mem_cons_of_mem a hbt1)
          hrab hrba
    subst hab
    have htails : t1.Perm t2 := hp.cons_inv
    have h1 := (List.sorted_cons.mp hs1).2
    have h2 := (List.sorted_cons.mp hs2).2
    have hanti2 : ∀ x ∈ t1, ∀ y ∈ t1, r x y → r y x → x = y := by
      intro x hx y hy
      exact hanti x (List.mem_cons_of_mem a hx) y (List.mem_cons_of_mem a hy)
    rw [eq_of_perm_of_sorted_of_antisymm htails h1 h2 hanti2]

/-! ## Lemmas: the ledger fold -/

lemma applyRoster_fields (mid pool : ℤ) (th pr : ℝ) (sign : Bool) :
    ∀ (l : List (Row × ℤ × ℝ)) (rt : Ratings) (e : Event),
      e ∈ (applyRoster mid pool th pr sign l rt).1 →
      e.pool = pool ∧ e.th_skew = th ∧ e.pr_skew = pr ∧ e.match_id = mid
  | [], rt, e, he => by simp [applyRoster] at he
  | (r, unit, share) :: rest, rt, e, he => by
    simp only [applyRoster, List.mem_cons] at he
    rcases he with rfl | he
    · exact ⟨rfl, rfl, rfl, rfl⟩
    · exact applyRoster_fields mid pool th pr sign rest _ e he

lemma applyRoster_length (mid pool : ℤ) (th pr : ℝ) (sign : Bool) :
    ∀ (l : List (Row × ℤ × ℝ)) (rt : Ratings),
      (applyRoster mid pool th pr sign l rt).1.length = l.length
  | [], rt => rfl
  | (r, unit, share) :: rest, rt => by
    simp only [applyRoster, List.length_cons]
    rw [applyRoster_length mid pool th pr sign rest _]

lemma applyRoster_diff_sum (mid pool : ℤ) (th pr : ℝ) (sign : Bool) :
    ∀ (l : List (Row × ℤ × ℝ)) (rt : Ratings),
      ((applyRoster mid pool th pr sign l rt).1.map Event.rating_diff).sum =
        (if sign then 1 else -1) * (l.map (fun t => t.2.1)).sum
  | [], rt => by simp [applyRoster]
  | (r, unit, share) :: rest, rt => by
    simp only [applyRoster, List.map_cons, List.sum_cons]
    rw [applyRoster_diff_sum mid pool th pr sign rest _]
    cases sign <;> simp <;> ring

lemma applyRoster_chain (mid pool : ℤ) (th pr : ℝ) (sign : Bool) :
    ∀ (l : List (Row × ℤ × ℝ)) (rt : Ratings),
      ChainedFrom rt (applyRoster mid pool th pr sign l rt).1 ∧
        (applyRoster mid pool th pr sign l rt).2 =
          applyEvents rt (applyRoster mid pool th pr sign l rt).1
  | [], rt => ⟨trivial, rfl⟩
  | (r, unit, share) :: rest, rt => by
    have ih := applyRoster_chain mid pool th pr sign rest
      (updateRating rt r.player_name
        (rt r.player_name + if sign then unit else -unit))
    simp only [applyRoster, ChainedFrom, applyEvents]
    exact ⟨⟨by trivial, ih.1⟩, ih.2⟩

lemma map_snd_fst_zip {β γ : Type} :
    ∀ (l1 : List Row) (l2 : List β) (l3 : List γ),
      l1.length = l2.length → l1.length = l3.length →
      ((l1.zip (l2.zip l3)).map (fun t => t.2.1)) = l2
  | [], [], l3, _, _ => rfl
  | [], b :: t2, l3, h12, _ => by simp at h12
  | a :: t1, [], l3, h12, _ => by simp at h12
  | a :: t1, b :: t2, [], _, h13 => by simp at h13
  | a :: t1, b :: t2, c :: t3, h12, h13 => by
    simp only [List.zip_cons_cons, List.map_cons]
    rw [map_snd_fst_zip t1 t2 t3 (by simpa using h12) (by simpa using h13)]

lemma applyEvents_append (rt : Ratings) (l1 l2 : List Event) :
    applyEvents rt (l1 ++ l2) = applyEvents (applyEvents rt l1) l2 := by
  induction l1 generalizing rt with
  | nil => rfl
  | cons e t ih =>
    simp only [List.cons_append, applyEvents]
    exact ih _

lemma ChainedFrom_append (rt : Ratings) (l1 l2 : List Event) :
    ChainedFrom rt (l1 ++ l2) ↔
      ChainedFrom rt l1 ∧ ChainedFrom (applyEvents rt l1) l2 := by
  induction l1 generalizing rt with
  | nil => simp [ChainedFrom, applyEvents]
  | cons e t ih =>
    simp only [List.cons_append, ChainedFrom, applyEvents, List.append_eq]
    rw [ih]
    exact and_assoc.symm

/-! ## Lemmas: share vectors -/

lemma meritRawOf_length (cfg : MmrConfig) (winners : Bool)
    (impacts : List ℚ) : (meritRawOf cfg winners impacts).length =
      impacts.length := by
  simp [meritRawOf]

lemma _shares_winners_length (s_impact : List ℚ) (cfg : MmrConfig) :
    (_shares_winners s_impact cfg).length = s_impact.length := by
  simp [_shares_winners, _normalize_length, meritRawOf_length]

lemma _shares_losers_length (s_impact : List ℚ) (cfg : MmrConfig) :
    (_shares_losers s_impact cfg).length = s_impact.length := by
  simp [_shares_losers, _normalize_length, meritRawOf_length]

/-! ## Lemmas: `processGroup` -/

lemma processGroup_skip {cfg : MmrConfig} {g : List Row}
    (h : radOf cfg g = [] ∨ direOf cfg g = []) (rt : Ratings)
    (k : MatchKey) : processGroup cfg rt k g = ([], rt) := by
  simp only [processGroup]
  rw [if_pos h]

lemma processGroup_events_shape (cfg : MmrConfig) (rt : Ratings)
    (k : MatchKey) (g : List Row) (e : Event)
    (he : e ∈ (processGroup cfg rt k g).1) :
    e.pool = groupPool cfg rt k g ∧
      e.th_skew = Real.exp (groupThLog cfg rt g) ∧
      e.pr_skew = Real.exp (groupKLog cfg k) ∧ e.match_id = k.match_id := by
  by_cases hskip : radOf cfg g = [] ∨ direOf cfg g = []
  · rw [processGroup_skip hskip] at he
    simp at he
  · simp only [processGroup] at he
    rw [if_neg hskip] at he
    rw [List.mem_append] at he
    rcases he with he | he
    · exact applyRoster_fields _ _ _ _ _ _ _ e he
    · exact applyRoster_fields _ _ _ _ _ _ _ e he

lemma processGroup_diff_sum (cfg : MmrConfig) (rt : Ratings) (k : MatchKey)
    (g : List Row) :
    (((processGroup cfg rt k g).1).map Event.rating_diff).sum = 0 := by
  by_cases hskip : radOf cfg g = [] ∨ direOf cfg g = []
  · rw [processGroup_skip hskip]
    simp
  · simp only [processGroup]
    rw [if_neg hskip]
    push_neg at hskip
    obtain ⟨hrne, hdne⟩ := hskip
    set rad := radOf cfg g with hrad
    set dire := direOf cfg g with hdire
    set pool := groupPool cfg rt k g with hpool
    set winRad := groupWinRad cfg k with hwr
    set radShare := if winRad then _shares_winners (rad.map Row.impact) cfg
      else _shares_losers (rad.map Row.impact) cfg with hrs
    set direShare := if winRad then _shares_losers (dire.map Row.impact) cfg
      else _shares_winners (dire.map Row.impact) cfg with hds
    set radTie := meritRawOf cfg winRad (rad.map Row.impact) with hrt2
    set direTie := meritRawOf cfg (!winRad) (dire.map Row.impact) with hdt2
    have hrslen : radShare.length = rad.length := by
      rw [hrs]
      split_ifs <;>
        simp [_shares_winners_length, _shares_losers_length]
    have hdslen : direShare.length = dire.length := by
      rw [hds]
      split_ifs <;>
        simp [_shares_winners_length, _shares_losers_length]
    have hrsne : radShare ≠ [] := by
      intro hc
      rw [hc] at hrslen
      exact hrne (List.length_eq_zero.mp hrslen.symm)
    have hdsne : direShare ≠ [] := by
      intro hc
      rw [hc] at hdslen
      exact hdne (List.length_eq_zero.mp hdslen.symm)
    have hrulen : (_integer_split radShare pool radTie).length = rad.length := by
      rw [_integer_split_length, hrslen]
    have hdulen : (_integer_split direShare pool direTie).length = dire.length := by
      rw [_integer_split_length, hdslen]
    rw [List.map_append, List.sum_append]
    rw [applyRoster_diff_sum, applyRoster_diff_sum]
    rw [map_snd_fst_zip rad _ radShare hrulen.symm hrslen.symm]
    rw [map_snd_fst_zip dire _ direShare hdulen.symm hdslen.symm]
    rw [_integer_split_sum hrsne, _integer_split_sum hdsne]
    rcases Bool.eq_false_or_eq_true winRad with hb | hb <;> rw [hb] <;> simp

lemma chain_append_two {rt : Ratings} {A B : List Event × Ratings}
    (hA : ChainedFrom rt A.1 ∧ A.2 = applyEvents rt A.1)
    (hB : ChainedFrom A.2 B.1 ∧ B.2 = applyEvents A.2 B.1) :
    ChainedFrom rt (A.1 ++ B.1) ∧ B.2 = applyEvents rt (A.1 ++ B.1) := by
  constructor
  · rw [ChainedFrom_append]
    exact ⟨hA.1, hA.2 ▸ hB.1⟩
  · rw [applyEvents_append, ← hA.2]
    exact hB.2

lemma processGroup_chain (cfg : MmrConfig) (rt : Ratings) (k : MatchKey)
    (g : List Row) :
    ChainedFrom rt (processGroup cfg rt k g).1 ∧
      (processGroup cfg rt k g).2 =
        applyEvents rt (processGroup cfg rt k g).1 := by
  by_cases hskip : radOf cfg g = [] ∨ direOf cfg g = []
  · rw [processGroup_skip hskip]
    exact ⟨trivial, rfl⟩
  · simp only [processGroup]
    rw [if_neg hskip]
    exact chain_append_two (applyRoster_chain _ _ _ _ _ _ _)
      (applyRoster_chain _ _ _ _ _ _ _)

lemma runGroups_chain (cfg : MmrConfig) :
    ∀ (gs : List (MatchKey × List Row)) (rt : Ratings),
      ChainedFrom rt (runGroups cfg rt gs)
  | [], rt => trivial
  | (k, g) :: rest, rt => by
    simp only [runGroups]
    rw [ChainedFrom_append]
    have h1 := processGroup_chain cfg rt k g
    refine ⟨h1.1, ?_⟩
    rw [← h1.2]
    exact runGroups_chain cfg rest _

lemma chainedFrom_filter {rt : Ratings} {evs : List Event}
    (h : ChainedFrom rt evs) (p : String) :
    PlayerChain (rt p) (evs.filter (fun e => e.player_name == p)) := by
  induction evs generalizing rt with
  | nil => trivial
  | cons e t ih =>
    obtain ⟨hbef, hrest⟩ := h
    by_cases hp : e.player_name = p
    · rw [List.filter_cons_of_pos (by simp [hp])]
      refine ⟨by rw [hbef, hp], ?_⟩
      have := ih hrest
      rwa [show updateRating rt e.player_name e.rating_after p =
        e.rating_after by simp [updateRating, hp]] at this
    · rw [List.filter_cons_of_neg (by simp [hp])]
      have := ih hrest
      have hup : updateRating rt e.player_name e.rating_after p = rt p := by
        unfold updateRating
        rw [if_neg (fun h2 => hp h2.symm)]
      rwa [hup] at this

lemma runGroups_mem (cfg : MmrConfig) :
    ∀ (gs : List (MatchKey × List Row)) (rt : Ratings) (e : Event),
      e ∈ runGroups cfg rt gs →
      ∃ rt2 k g, (k, g) ∈ gs ∧ e ∈ (processGroup cfg rt2 k g).1
  | [], rt, e, he => by simp [runGroups] at he
  | (k, g) :: rest, rt, e, he => by
    simp only [runGroups, List.mem_append] at he
    rcases he with he | he
    · exact ⟨rt, k, g, List.mem_cons_self _ _, he⟩
    · obtain ⟨rt2, k2, g2, hmem, hin⟩ :=
        runGroups_mem cfg rest (processGroup cfg rt k g).2 e he
      exact ⟨rt2, k2, g2, List.mem_cons_of_mem _ hmem, hin⟩

/-! ## Claim theorems -/

lemma runGroups_skip_middle (cfg : MmrConfig) {k : MatchKey} {g : List Row}
    (h : radOf cfg g = [] ∨ direOf cfg g = []) :
    ∀ (l1 l2 : List (MatchKey × List Row)) (rt0 : Ratings),
      runGroups cfg rt0 (l1 ++ (k, g) :: l2) = runGroups cfg rt0 (l1 ++ l2)
  | [], l2, rt0 => by
    simp only [List.nil_append, runGroups]
    rw [processGroup_skip h]
    simp
  | (k2, g2) :: rest, l2, rt0 => by
    simp only [List.cons_append, runGroups, List.append_eq]
    rw [runGroups_skip_middle cfg h rest l2 _]

/-- C1: for every processed match (both rosters non-empty), the rating
diffs of all events the match emits — winners and losers together — sum
to zero. -/
theorem C1_conservation (cfg : MmrConfig) (rt : Ratings) (k : MatchKey)
    (g : List Row) (hrad : radOf cfg g ≠ []) (hdire : direOf cfg g ≠ []) :
    (((processGroup cfg rt k g).1).map Event.rating_diff).sum = 0 :=
  processGroup_diff_sum cfg rt k g

theorem C1_conservation_witness :
    (radOf DEFAULT_MMR
        [⟨7, 0, 1800, 10, 2, "radiant", "alice", "radiant", 1, 0⟩,
         ⟨7, 0, 1800, 10, 2, "radiant", "bob", "dire", 1, 0⟩] ≠ [] ∧
      direOf DEFAULT_MMR
        [⟨7, 0, 1800, 10, 2, "radiant", "alice", "radiant", 1, 0⟩,
         ⟨7, 0, 1800, 10, 2, "radiant", "bob", "dire", 1, 0⟩] ≠ []) ∧
    (((processGroup DEFAULT_MMR (fun _ => 500) ⟨7, 0, 1800, 10, 2, "radiant"⟩
        [⟨7, 0, 1800, 10, 2, "radiant", "alice", "radiant", 1, 0⟩,
         ⟨7, 0, 1800, 10, 2, "radiant", "bob", "dire", 1, 0⟩]).1).map
      Event.rating_diff).sum = 0 :=
  ⟨⟨by decide, by decide⟩,
    C1_conservation DEFAULT_MMR (fun _ => 500) ⟨7, 0, 1800, 10, 2, "radiant"⟩
      _ (by decide) (by decide)⟩

/-- C2: the integer apportionment of a non-negative pool along non-empty,
non-negative share vectors returns one non-negative integer per player,
and these integers sum exactly to the pool. -/
theorem C2_exact_apportionment (weights tie_key : List ℝ) (total : ℤ)
    (hne : weights ≠ []) (hnn : ∀ w ∈ weights, 0 ≤ w) (ht : 0 ≤ total) :
    (_integer_split weights total tie_key).length = weights.length ∧
      (∀ a ∈ _integer_split weights total tie_key, 0 ≤ a) ∧
      (_integer_split weights total tie_key).sum = total :=
  ⟨_integer_split_length weights total tie_key,
    _integer_split_nonneg hnn ht tie_key,
    _integer_split_sum hne total tie_key⟩

theorem C2_exact_apportionment_witness :
    ([(1 : ℝ) / 2, 1 / 2] ≠ [] ∧ (∀ w ∈ [(1 : ℝ) / 2, 1 / 2], 0 ≤ w) ∧
        (0 : ℤ) ≤ 5) ∧
      ((_integer_split [(1 : ℝ) / 2, 1 / 2] 5 [0, 0]).length = 2 ∧
        (∀ a ∈ _integer_split [(1 : ℝ) / 2, 1 / 2] 5 [0, 0], 0 ≤ a) ∧
        (_integer_split [(1 : ℝ) / 2, 1 / 2] 5 [0, 0]).sum = 5) := by
  have h := C2_exact_apportionment [(1 : ℝ) / 2, 1 / 2] [0, 0] 5
    (by simp) (by norm_num) (by norm_num)
  exact ⟨⟨by simp, by norm_num, by norm_num⟩, h⟩

/-- C3: ledger continuity — in canonical processing order, each player's
first event starts from the configured initial rating, and every later
event of that player starts exactly where their previous event ended. -/
theorem C3_continuity (cfg : MmrConfig) (rows : List Row) (p : String) :
    PlayerChain cfg.initial_mmr
      ((engineEvents cfg rows).filter (fun e => e.player_name == p)) := by
  have h := runGroups_chain cfg (groupsOf rows) (fun _ => cfg.initial_mmr)
  exact chainedFrom_filter h p

/-- C7: a match lacking a roster on one side is skipped whole: it emits
no events, leaves every rating untouched, and the rest of the run is as
if the match were absent. -/
theorem C7_malformed_skip (cfg : MmrConfig) (rt0 rt : Ratings)
    (k : MatchKey) (g : List Row) (l1 l2 : List (MatchKey × List Row))
    (h : radOf cfg g = [] ∨ direOf cfg g = []) :
    (processGroup cfg rt k g).1 = [] ∧ (processGroup cfg rt k g).2 = rt ∧
      runGroups cfg rt0 (l1 ++ (k, g) :: l2) = runGroups cfg rt0 (l1 ++ l2) := by
  have h1 := processGroup_skip h rt k
  exact ⟨by rw [h1], by rw [h1],
    runGroups_skip_middle cfg h l1 l2 rt0⟩

theorem C7_malformed_skip_witness :
    (radOf DEFAULT_MMR [⟨3, 0, 1800, 5, 5, "dire", "carl", "dire", 1, 0⟩] = [] ∨
        direOf DEFAULT_MMR [⟨3, 0, 1800, 5, 5, "dire", "carl", "dire", 1, 0⟩] = []) ∧
      ((processGroup DEFAULT_MMR (fun _ => 500) ⟨3, 0, 1800, 5, 5, "dire"⟩
          [⟨3, 0, 1800, 5, 5, "dire", "carl", "dire", 1, 0⟩]).1 = [] ∧
        (processGroup DEFAULT_MMR (fun _ => 500) ⟨3, 0, 1800, 5, 5, "dire"⟩
          [⟨3, 0, 1800, 5, 5, "dire", "carl", "dire", 1, 0⟩]).2 = (fun _ => 500) ∧
        runGroups DEFAULT_MMR (fun _ => 500)
            ([] ++ (⟨3, 0, 1800, 5, 5, "dire"⟩,
              [⟨3, 0, 1800, 5, 5, "dire", "carl", "dire", 1, 0⟩]) :: []) =
          runGroups DEFAULT_MMR (fun _ => 500) ([] ++ [])) :=
  ⟨by decide,
    C7_malformed_skip DEFAULT_MMR (fun _ => 500) (fun _ => 500)
      ⟨3, 0, 1800, 5, 5, "dire"⟩
      [⟨3, 0, 1800, 5, 5, "dire", "carl", "dire", 1, 0⟩] [] [] (by decide)⟩

/-- C10: within one processed match, `pool`, `th_skew` and `pr_skew` are
per-match constants — every emitted event of the match carries the same
three values. -/
theorem C10_per_match_constants (cfg : MmrConfig) (rt : Ratings)
    (k : MatchKey) (g : List Row) :
    ∃ p th pr, ∀ e ∈ (processGroup cfg rt k g).1,
      e.pool = p ∧ e.th_skew = th ∧ e.pr_skew = pr :=
  ⟨groupPool cfg rt k g, Real.exp (groupThLog cfg rt g),
    Real.exp (groupKLog cfg k), fun e he =>
      let h := processGroup_events_shape cfg rt k g e he
      ⟨h.1, h.2.1, h.2.2.1⟩⟩

lemma thLogOf_bounds (cfg : MmrConfig) (R D : ℚ) (h : 0 ≤ cfg.th_clip) :
    -((cfg.th_clip : ℚ) : ℝ) ≤ thLogOf cfg R D ∧
      thLogOf cfg R D ≤ ((cfg.th_clip : ℚ) : ℝ) := by
  have hc : (0 : ℝ) ≤ ((cfg.th_clip : ℚ) : ℝ) := by exact_mod_cast h
  have hle : -((cfg.th_clip : ℚ) : ℝ) ≤ ((cfg.th_clip : ℚ) : ℝ) := by linarith
  exact ⟨lo_le_clipF _ hle, clipF_le_hi _ _ _⟩

lemma calculate_mem_engine {cfg : MmrConfig} {rows : List Row} {e : Event} :
    e ∈ calculate_ranked_mmr cfg rows ↔ e ∈ engineEvents cfg rows :=
  (List.perm_insertionSort evLe (engineEvents cfg rows)).mem_iff

/-- C9: every emitted event's theoretical and performance skews are
strictly positive, and the theoretical skew is trapped in
`[exp(-th_clip), exp(th_clip)]` because its log is clipped. -/
theorem C9_skew_positivity (cfg : MmrConfig) (rows : List Row)
    (hka : 0 < cfg.k_alpha)
    (hkills : ∀ r ∈ rows, 0 ≤ r.radiant_kills ∧ 0 ≤ r.dire_kills)
    (hclip : 0 ≤ cfg.th_clip) :
    ∀ e ∈ calculate_ranked_mmr cfg rows,
      0 < e.th_skew ∧ 0 < e.pr_skew ∧
        Real.exp (-((cfg.th_clip : ℚ) : ℝ)) ≤ e.th_skew ∧
        e.th_skew ≤ Real.exp ((cfg.th_clip : ℚ) : ℝ) := by
  intro e he
  rw [calculate_mem_engine] at he
  obtain ⟨rt2, k, g, -, hin⟩ :=
    runGroups_mem cfg (groupsOf rows) (fun _ => cfg.initial_mmr) e he
  obtain ⟨-, hth, hpr, -⟩ := processGroup_events_shape cfg rt2 k g e hin
  have hb := thLogOf_bounds cfg (groupR cfg rt2 g) (groupD cfg rt2 g) hclip
  refine ⟨?_, ?_, ?_, ?_⟩
  · rw [hth]
    exact Real.exp_pos _
  · rw [hpr]
    exact Real.exp_pos _
  · rw [hth]
    exact Real.exp_le_exp.mpr hb.1
  · rw [hth]
    exact Real.exp_le_exp.mpr hb.2

theorem C9_skew_positivity_witness :
    ((0 : ℚ) < DEFAULT_MMR.k_alpha ∧
      (∀ r ∈ [(⟨7, 0, 1800, 10, 2, "radiant", "alice", "radiant", 1, 0⟩ : Row),
          ⟨7, 0, 1800, 10, 2, "radiant", "bob", "dire", 1, 0⟩],
        0 ≤ r.radiant_kills ∧ 0 ≤ r.dire_kills) ∧
      (0 : ℚ) ≤ DEFAULT_MMR.th_clip) ∧
    (∀ e ∈ calculate_ranked_mmr DEFAULT_MMR
        [⟨7, 0, 1800, 10, 2, "radiant", "alice", "radiant", 1, 0⟩,
         ⟨7, 0, 1800, 10, 2, "radiant", "bob", "dire", 1, 0⟩],
      0 < e.th_skew ∧ 0 < e.pr_skew ∧
        Real.exp (-((DEFAULT_MMR.th_clip : ℚ) : ℝ)) ≤ e.th_skew ∧
        e.th_skew ≤ Real.exp ((DEFAULT_MMR.th_clip : ℚ) : ℝ)) := by
  refine ⟨⟨by norm_num [DEFAULT_MMR], by decide, by norm_num [DEFAULT_MMR]⟩, ?_⟩
  exact C9_skew_positivity DEFAULT_MMR _ (by norm_num [DEFAULT_MMR])
    (by decide) (by norm_num [DEFAULT_MMR])

/-! ## Lemmas: concrete evaluation helpers -/

lemma thLogOf_self (cfg : MmrConfig) (hclip : 0 ≤ cfg.th_clip) (R : ℚ)
    (hR : R ≠ 0) : thLogOf cfg R R = 0 := by
  unfold thLogOf
  have h1 : ((R : ℚ) : ℝ) / ((R : ℚ) : ℝ) = 1 :=
    div_self (by exact_mod_cast hR)
  rw [h1, Real.log_one]
  have hc : (0 : ℝ) ≤ ((cfg.th_clip : ℚ) : ℝ) := by exact_mod_cast hclip
  exact clipF_eq_self (by linarith) hc

lemma kLogOf_equal (cfg : MmrConfig) (x dur : ℤ) :
    kLogOf cfg x x dur = 0 := by
  unfold kLogOf
  rcases eq_or_ne ((x : ℝ) + ((cfg.k_alpha : ℚ) : ℝ)) 0 with h | h
  · rw [h, div_zero, Real.log_zero, mul_zero]
  · rw [div_self h, Real.log_one, mul_zero]

lemma poolOf_DEFAULT_zero : poolOf DEFAULT_MMR 0 0 = 50 := by
  unfold poolOf
  have h1 : ((DEFAULT_MMR.base_pool : ℚ) : ℝ) +
      ((DEFAULT_MMR.pool_gamma : ℚ) : ℝ) *
        |((DEFAULT_MMR.w_th : ℚ) : ℝ) * 0 + ((DEFAULT_MMR.w_k : ℚ) : ℝ) * 0| =
      50 := by
    norm_num [DEFAULT_MMR]
  rw [h1, clipF_eq_self (by norm_num [DEFAULT_MMR]) (by norm_num [DEFAULT_MMR]),
    show (50 : ℝ) = ((50 : ℤ) : ℝ) by norm_num, roundHalfEven_intCast]

lemma _impact01_zero : _impact01 0 ((((1 : ℚ)) : ℝ)) = 1 / 2 := by
  unfold _impact01
  rw [clipF_eq_self (by norm_num) (by norm_num),
    show ((((1 : ℚ)) : ℝ)) = 1 by norm_num, Real.rpow_one]
  norm_num

lemma meritRawOf_DEFAULT_zero3 (winners : Bool) :
    meritRawOf DEFAULT_MMR winners [0, 0, 0] = [1 / 2, 1 / 2, 1 / 2] := by
  unfold meritRawOf
  have h0 : _impact01 (if winners then (((0 : ℚ)) : ℝ) else (((-(0 : ℚ)) : ℚ) : ℝ))
      ((DEFAULT_MMR.map_gamma : ℚ) : ℝ) = 1 / 2 := by
    have hx : (if winners then (((0 : ℚ)) : ℝ) else (((-(0 : ℚ)) : ℚ) : ℝ)) = 0 := by
      cases winners <;> norm_num
    rw [hx, show ((DEFAULT_MMR.map_gamma : ℚ) : ℝ) = (((1 : ℚ)) : ℝ) by
      norm_num [DEFAULT_MMR]]
    exact _impact01_zero
  simp only [List.map_cons, List.map_nil, h0]

lemma _normalize_half3 : _normalize ([1 / 2, 1 / 2, 1 / 2] : List ℝ) =
    [1 / 3, 1 / 3, 1 / 3] := by
  unfold _normalize
  rw [if_neg (by norm_num)]
  norm_num

lemma shares_DEFAULT_zero3_winners :
    _shares_winners [0, 0, 0] DEFAULT_MMR = [1 / 3, 1 / 3, 1 / 3] := by
  unfold _shares_winners
  rw [meritRawOf_DEFAULT_zero3, _normalize_half3]
  norm_num [DEFAULT_MMR]

lemma shares_DEFAULT_zero3_losers :
    _shares_losers [0, 0, 0] DEFAULT_MMR = [1 / 3, 1 / 3, 1 / 3] := by
  unfold _shares_losers
  rw [meritRawOf_DEFAULT_zero3, _normalize_half3]
  norm_num [DEFAULT_MMR]

lemma split_third_50 :
    _integer_split ([1 / 3, 1 / 3, 1 / 3] : List ℝ) 50 [1 / 2, 1 / 2, 1 / 2] =
      [17, 17, 16] := by
  rw [_integer_split_const (c := 1 / 3) (d := 1 / 2) (by simp)
    (by intro x hx; fin_cases hx <;> norm_num)
    (by simp) (by intro t ht; fin_cases ht <;> norm_num) 50]
  decide

/-! ## C4 -/

lemma exC4_rad : radOf DEFAULT_MMR exGroupC4 =
    [⟨9, 0, 1800, 5, 5, "radiant", "zed", "radiant", 1, 0⟩,
     ⟨9, 0, 1800, 5, 5, "radiant", "amy", "radiant", 2, 0⟩,
     ⟨9, 0, 1800, 5, 5, "radiant", "bob", "radiant", 3, 0⟩] := by decide

lemma exC4_dire : direOf DEFAULT_MMR exGroupC4 =
    [⟨9, 0, 1800, 5, 5, "radiant", "carl", "dire", 1, 0⟩,
     ⟨9, 0, 1800, 5, 5, "radiant", "dan", "dire", 2, 0⟩,
     ⟨9, 0, 1800, 5, 5, "radiant", "eve", "dire", 3, 0⟩] := by decide

lemma exC4_R : groupR DEFAULT_MMR (fun _ => 500) exGroupC4 = 2625 := by
  unfold groupR
  rw [exC4_rad]
  unfold strengthOf _pos_mult
  norm_num [DEFAULT_MMR]

lemma exC4_D : groupD DEFAULT_MMR (fun _ => 500) exGroupC4 = 2625 := by
  unfold groupD
  rw [exC4_dire]
  unfold strengthOf _pos_mult
  norm_num [DEFAULT_MMR]

lemma exC4_pool :
    groupPool DEFAULT_MMR (fun _ => 500) exKeyC4 exGroupC4 = 50 := by
  unfold groupPool
  rw [show groupThLog DEFAULT_MMR (fun _ => 500) exGroupC4 = 0 by
      unfold groupThLog
      rw [exC4_R, exC4_D]
      exact thLogOf_self DEFAULT_MMR (by norm_num [DEFAULT_MMR]) 2625 (by norm_num),
    show groupKLog DEFAULT_MMR exKeyC4 = 0 from kLogOf_equal DEFAULT_MMR 5 1800]
  exact poolOf_DEFAULT_zero

/-- C4, counterexample: with all fractional parts and tie keys equal, the
leftover units go to the first rows of the roster (`zed` at position 1,
then `amy`), not to the alphabetically smallest names (`amy`, `bob`):
`bob` precedes `zed` alphabetically yet receives 16 while `zed` gets 17. -/
theorem C4_counterexample :
    strLtB "amy" "bob" = true ∧ strLtB "bob" "zed" = true ∧
    ((processGroup DEFAULT_MMR (fun _ => 500) exKeyC4 exGroupC4).1.map
        (fun e => (e.player_name, e.rating_diff))) =
      [("zed", 17), ("amy", 17), ("bob", 16),
       ("carl", -17), ("dan", -17), ("eve", -16)] := by
  refine ⟨by decide, by decide, ?_⟩
  have hskip : ¬(radOf DEFAULT_MMR exGroupC4 = [] ∨
      direOf DEFAULT_MMR exGroupC4 = []) := by decide
  have hwin : groupWinRad DEFAULT_MMR exKeyC4 = true := by decide
  simp only [processGroup]
  rw [if_neg hskip, exC4_rad, exC4_dire, exC4_pool, hwin]
  simp only [List.map_cons, List.map_nil, Bool.not_true, if_true]
  rw [shares_DEFAULT_zero3_winners, shares_DEFAULT_zero3_losers,
    meritRawOf_DEFAULT_zero3, meritRawOf_DEFAULT_zero3, split_third_50]
  simp only [List.zip_cons_cons, List.zip_nil_right, applyRoster,
    List.map_cons, List.map_nil, List.map_append]
  decide

/-- C4 amended: the leftover units of `_integer_split` go, after the
fractional-part and tie-key comparisons, to the players with the smallest
positional index in the team's row order (position order), never by
player name; on an all-equal team the allocation is
`total / n` plus one extra for exactly the first `total % n` row indices. -/
theorem C4_amended_index_tiebreak {α : Type} [LinearOrderedField α]
    [FloorRing α] {weights tie_key : List α} {c d : α} (h : weights ≠ [])
    (hc : ∀ x ∈ weights, x = c) (htl : tie_key.length = weights.length)
    (htc : ∀ t ∈ tie_key, t = d) (total : ℤ) :
    _integer_split weights total tie_key =
      (List.range weights.length).map
        (fun (i : ℕ) => total / (weights.length : ℤ) +
          if (i : ℤ) < total % (weights.length : ℤ) then 1 else 0) :=
  _integer_split_const h hc htl htc total

theorem C4_amended_index_tiebreak_witness :
    (([(1 : ℚ), 1] ≠ [] ∧ (∀ x ∈ [(1 : ℚ), 1], x = 1) ∧
        ([(0 : ℚ), 0] : List ℚ).length = ([(1 : ℚ), 1] : List ℚ).length ∧
        (∀ t ∈ [(0 : ℚ), 0], t = 0)) ∧
      _integer_split [(1 : ℚ), 1] 3 [0, 0] =
        (List.range 2).map
          (fun (i : ℕ) => 3 / (2 : ℤ) + if (i : ℤ) < 3 % (2 : ℤ) then 1 else 0)) := by
  have h := @C4_amended_index_tiebreak ℚ _ _ [1, 1] [0, 0] 1 0
    (by simp) (by intro x hx; fin_cases hx <;> norm_num)
    (by simp) (by intro t ht; fin_cases ht <;> norm_num) 3
  exact ⟨⟨by simp, by intro x hx; fin_cases hx <;> norm_num,
    by simp, by intro t ht; fin_cases ht <;> norm_num⟩, h⟩

/-! ## The 1v1 evaluation -/

lemma groupsOf_1v1 : groupsOf exRows1v1 = [(exKey1v1, exSorted1v1)] := by
  decide

lemma _normalize_half1 : _normalize ([1 / 2] : List ℝ) = [1] := by
  unfold _normalize
  rw [if_neg (by norm_num)]
  norm_num

lemma _integer_split_single (x y : ℝ) (total : ℤ) :
    _integer_split [x] total [y] = [total] := by
  rw [@_integer_split_const ℝ _ _ [x] [y] x y (by simp)
    (by intro a ha; fin_cases ha; rfl) (by simp)
    (by intro t ht; fin_cases ht; rfl) total]
  simp only [List.length_cons, List.length_nil, Nat.zero_add]
  rw [show List.range 1 = [0] from rfl]
  simp only [List.map_cons, List.map_nil]
  norm_num

lemma meritRawOf_zero1 (cfg : MmrConfig) (h3 : cfg.map_gamma = 1)
    (w : Bool) : meritRawOf cfg w [0] = [1 / 2] := by
  unfold meritRawOf
  simp only [List.map_cons, List.map_nil]
  have hx : (if w then (((0 : ℚ)) : ℝ) else (((-(0 : ℚ)) : ℚ) : ℝ)) = 0 := by
    cases w <;> norm_num
  rw [hx, h3]
  rw [_impact01_zero]

lemma shares_zero1_winners (cfg : MmrConfig) (h3 : cfg.map_gamma = 1) :
    _shares_winners [0] cfg = [1] := by
  unfold _shares_winners
  rw [meritRawOf_zero1 cfg h3 true, _normalize_half1]
  simp only [List.map_cons, List.map_nil, List.length_cons, List.length_nil]
  norm_num

lemma shares_zero1_losers (cfg : MmrConfig) (h3 : cfg.map_gamma = 1) :
    _shares_losers [0] cfg = [1] := by
  unfold _shares_losers
  rw [meritRawOf_zero1 cfg h3 false, _normalize_half1]
  simp only [List.map_cons, List.map_nil, List.length_cons, List.length_nil]
  norm_num

lemma engine_1v1_eval (cfg : MmrConfig) (h1 : cfg.team_radiant = "radiant")
    (h2 : cfg.team_dire = "dire") (h3 : cfg.map_gamma = 1)
    (h4 : cfg.initial_mmr = 500) (h5 : 0 ≤ cfg.th_clip)
    (h6 : cfg.pos_multiplier = ⟨2, -(1 / 4)⟩) :
    engineEvents cfg exRows1v1 =
      [⟨11, "alice", poolOf cfg 0 0, Real.exp 0, Real.exp 0, 1, 500,
        500 + poolOf cfg 0 0, poolOf cfg 0 0⟩,
       ⟨11, "bob", poolOf cfg 0 0, Real.exp 0, Real.exp 0, 1, 500,
        500 + -poolOf cfg 0 0, -poolOf cfg 0 0⟩] := by
  have hrad : radOf cfg exSorted1v1 =
      [⟨11, 0, 1800, 5, 5, "radiant", "alice", "radiant", 1, 0⟩] := by
    unfold radOf
    rw [h1]
    decide
  have hdire : direOf cfg exSorted1v1 =
      [⟨11, 0, 1800, 5, 5, "radiant", "bob", "dire", 1, 0⟩] := by
    unfold direOf
    rw [h2]
    decide
  have hskip : ¬(radOf cfg exSorted1v1 = [] ∨ direOf cfg exSorted1v1 = []) := by
    rw [hrad, hdire]
    simp
  have hR : groupR cfg (fun _ => (cfg.initial_mmr : ℤ)) exSorted1v1 = 1000 := by
    unfold groupR
    rw [hrad]
    unfold strengthOf _pos_mult
    rw [h6]
    simp only [List.map_cons, List.map_nil, List.sum_cons, List.sum_nil]
    rw [h4]
    norm_num
  have hD : groupD cfg (fun _ => (cfg.initial_mmr : ℤ)) exSorted1v1 = 1000 := by
    unfold groupD
    rw [hdire]
    unfold strengthOf _pos_mult
    rw [h6]
    simp only [List.map_cons, List.map_nil, List.sum_cons, List.sum_nil]
    rw [h4]
    norm_num
  have hthlog : groupThLog cfg (fun _ => (cfg.initial_mmr : ℤ)) exSorted1v1 = 0 := by
    unfold groupThLog
    rw [hR, hD]
    exact thLogOf_self cfg h5 1000 (by norm_num)
  have hklog : groupKLog cfg exKey1v1 = 0 := kLogOf_equal cfg 5 1800
  have hpool : groupPool cfg (fun _ => (cfg.initial_mmr : ℤ)) exKey1v1 exSorted1v1 =
      poolOf cfg 0 0 := by
    unfold groupPool
    rw [hthlog, hklog]
  have hwin : groupWinRad cfg exKey1v1 = true := by
    unfold groupWinRad
    rw [h1]
    decide
  unfold engineEvents
  rw [groupsOf_1v1]
  simp only [runGroups, processGroup]
  rw [if_neg hskip, hrad, hdire, hpool, hthlog, hklog, hwin]
  simp only [List.map_cons, List.map_nil, Bool.not_true, if_true]
  rw [shares_zero1_winners cfg h3, shares_zero1_losers cfg h3,
    meritRawOf_zero1 cfg h3 true, meritRawOf_zero1 cfg h3 false,
    _integer_split_single]
  simp only [List.zip_cons_cons, List.zip_nil_right, applyRoster,
    updateRating, List.append_nil]
  rw [if_neg (show ¬("bob" : String) = "alice" by decide)]
  rw [h4]
  norm_num [exKey1v1]

/-! ## C6 -/

lemma poolOf_cfgC6_zero : poolOf cfgC6 0 0 = 50 := by
  unfold poolOf
  have h1 : ((cfgC6.base_pool : ℚ) : ℝ) +
      ((cfgC6.pool_gamma : ℚ) : ℝ) *
        |((cfgC6.w_th : ℚ) : ℝ) * 0 + ((cfgC6.w_k : ℚ) : ℝ) * 0| = 50 := by
    norm_num [cfgC6, DEFAULT_MMR]
  rw [h1, clipF_eq_self (by norm_num [cfgC6, DEFAULT_MMR])
      (by norm_num [cfgC6, DEFAULT_MMR]),
    show (50 : ℝ) = ((50 : ℤ) : ℝ) by norm_num, roundHalfEven_intCast]

/-- C6, counterexample: with the invalid configuration
`merit_weight = 2 ∉ [0, 1]`, `calculate_ranked_mmr` does not fail fast:
it processes the match and emits rating events with non-zero diffs. -/
theorem C6_counterexample :
    ¬configValid cfgC6 ∧
      (calculate_ranked_mmr cfgC6 exRows1v1).map
          (fun e => (e.player_name, e.rating_diff)) =
        [("alice", 50), ("bob", -50)] := by
  constructor
  · intro h
    exact absurd h.2.2 (by norm_num [cfgC6, DEFAULT_MMR])
  · unfold calculate_ranked_mmr
    rw [engine_1v1_eval cfgC6 rfl rfl rfl rfl
      (by norm_num [cfgC6, DEFAULT_MMR]) rfl, poolOf_cfgC6_zero]
    simp only [List.insertionSort, List.orderedInsert]
    rw [if_pos (show evLe
      ⟨11, "alice", 50, Real.exp 0, Real.exp 0, 1, 500, 500 + 50, 50⟩
      ⟨11, "bob", 50, Real.exp 0, Real.exp 0, 1, 500, 500 + -50, -50⟩ by decide)]
    simp only [List.map_cons, List.map_nil]

lemma processGroup_num_events (cfg : MmrConfig) (rt : Ratings) (k : MatchKey)
    (g : List Row) :
    (processGroup cfg rt k g).1.length = groupEmitCount cfg g := by
  by_cases hskip : radOf cfg g = [] ∨ direOf cfg g = []
  · rw [processGroup_skip hskip]
    unfold groupEmitCount
    rw [if_pos hskip]
    rfl
  · simp only [processGroup]
    rw [if_neg hskip]
    unfold groupEmitCount
    rw [if_neg hskip]
    push_neg at hskip
    obtain ⟨hrne, hdne⟩ := hskip
    set rad := radOf cfg g with hrad
    set dire := direOf cfg g with hdire
    set pool := groupPool cfg rt k g with hpool
    set winRad := groupWinRad cfg k with hwr
    set radShare := if winRad then _shares_winners (rad.map Row.impact) cfg
      else _shares_losers (rad.map Row.impact) cfg with hrs
    set direShare := if winRad then _shares_losers (dire.map Row.impact) cfg
      else _shares_winners (dire.map Row.impact) cfg with hds
    have hrslen : radShare.length = rad.length := by
      rw [hrs]
      split_ifs <;>
        simp [_shares_winners_length, _shares_losers_length]
    have hdslen : direShare.length = dire.length := by
      rw [hds]
      split_ifs <;>
        simp [_shares_winners_length, _shares_losers_length]
    rw [List.length_append, applyRoster_length, applyRoster_length]
    rw [List.length_zip, List.length_zip, List.length_zip, List.length_zip,
      _integer_split_length, _integer_split_length, hrslen, hdslen]
    simp [min_self]

lemma runGroups_length (cfg : MmrConfig) :
    ∀ (gs : List (MatchKey × List Row)) (rt : Ratings),
      (runGroups cfg rt gs).length =
        (gs.map (fun p => groupEmitCount cfg p.2)).sum
  | [], rt => rfl
  | (k, g) :: rest, rt => by
    simp only [runGroups, List.length_append, List.map_cons, List.sum_cons]
    rw [processGroup_num_events, runGroups_length cfg rest _]

/-- C6 amended: `calculate_ranked_mmr` performs no configuration
validation.  Even under an invalid configuration (empty pool range or
`merit_weight` outside `[0, 1]`) it does not fail fast: it processes every
match normally, emitting exactly one rating event per roster player of
every processed match. -/
theorem C6_amended_no_validation (cfg : MmrConfig) (rows : List Row)
    (h : ¬configValid cfg) :
    (calculate_ranked_mmr cfg rows).length = emittedCount cfg rows := by
  unfold calculate_ranked_mmr emittedCount engineEvents
  rw [(List.perm_insertionSort evLe _).length_eq]
  exact runGroups_length cfg (groupsOf rows) _

theorem C6_amended_no_validation_witness :
    ¬configValid cfgC6 ∧
      (calculate_ranked_mmr cfgC6 exRows1v1).length =
        emittedCount cfgC6 exRows1v1 := by
  have hinv : ¬configValid cfgC6 := by
    intro h
    exact absurd h.2.2 (by norm_num [cfgC6, DEFAULT_MMR])
  exact ⟨hinv, C6_amended_no_validation cfgC6 exRows1v1 hinv⟩

/-! ## C8 -/

lemma fract_127_5 : Int.fract ((127 : ℝ) / 5) = 2 / 5 := by
  unfold Int.fract
  norm_num

lemma poolOf_cfgC8_zero : poolOf cfgC8 0 0 = 25 := by
  unfold poolOf
  have h1 : ((cfgC8.base_pool : ℚ) : ℝ) +
      ((cfgC8.pool_gamma : ℚ) : ℝ) *
        |((cfgC8.w_th : ℚ) : ℝ) * 0 + ((cfgC8.w_k : ℚ) : ℝ) * 0| = 50 := by
    norm_num [cfgC8, DEFAULT_MMR]
  have h2 : clipF (50 : ℝ) ((cfgC8.pool_min : ℚ) : ℝ)
      ((cfgC8.pool_max : ℚ) : ℝ) = (127 : ℝ) / 5 := by
    unfold clipF
    rw [max_eq_left (by norm_num [cfgC8, DEFAULT_MMR]),
      min_eq_right (by norm_num [cfgC8, DEFAULT_MMR])]
    norm_num [cfgC8, DEFAULT_MMR]
  rw [h1, h2, roundHalfEven_of_fract_lt _ (by rw [fract_127_5]; norm_num)]
  norm_num

/-- C8, counterexample: with the valid but non-integer pool bounds
`pool_min = pool_max = 25.4`, the emitted pool is `25 < pool_min`: the
rounding step leaves the clipped interval, so `pool_min ≤ pool` fails. -/
theorem C8_counterexample :
    cfgC8.pool_min ≤ cfgC8.pool_max ∧
      (calculate_ranked_mmr cfgC8 exRows1v1).map Event.pool = [25, 25] ∧
      ¬(cfgC8.pool_min ≤ ((25 : ℤ) : ℚ)) := by
  refine ⟨by norm_num [cfgC8, DEFAULT_MMR], ?_,
    by norm_num [cfgC8, DEFAULT_MMR]⟩
  unfold calculate_ranked_mmr
  rw [engine_1v1_eval cfgC8 rfl rfl rfl rfl
    (by norm_num [cfgC8, DEFAULT_MMR]) rfl, poolOf_cfgC8_zero]
  simp only [List.insertionSort, List.orderedInsert]
  rw [if_pos (show evLe
    ⟨11, "alice", 25, Real.exp 0, Real.exp 0, 1, 500, 500 + 25, 25⟩
    ⟨11, "bob", 25, Real.exp 0, Real.exp 0, 1, 500, 500 + -25, -25⟩ by decide)]
  simp only [List.map_cons, List.map_nil]

lemma poolOf_bounds (cfg : MmrConfig) (h : cfg.pool_min ≤ cfg.pool_max)
    (thL kL : ℝ) :
    ((cfg.pool_min : ℚ) : ℝ) - 1 / 2 ≤ ((poolOf cfg thL kL : ℤ) : ℝ) ∧
      ((poolOf cfg thL kL : ℤ) : ℝ) ≤ ((cfg.pool_max : ℚ) : ℝ) + 1 / 2 := by
  unfold poolOf
  have hcast : ((cfg.pool_min : ℚ) : ℝ) ≤ ((cfg.pool_max : ℚ) : ℝ) := by
    exact_mod_cast h
  set X := clipF (((cfg.base_pool : ℚ) : ℝ) +
    ((cfg.pool_gamma : ℚ) : ℝ) *
      |((cfg.w_th : ℚ) : ℝ) * thL + ((cfg.w_k : ℚ) : ℝ) * kL|)
    ((cfg.pool_min : ℚ) : ℝ) ((cfg.pool_max : ℚ) : ℝ) with hX
  have hlo : ((cfg.pool_min : ℚ) : ℝ) ≤ X := lo_le_clipF _ hcast
  have hhi : X ≤ ((cfg.pool_max : ℚ) : ℝ) := clipF_le_hi _ _ _
  have h1 := le_roundHalfEven X
  have h2 := roundHalfEven_le X
  exact ⟨by linarith, by linarith⟩

/-- C8 amended: the emitted pool is an integer within half a unit of the
clipped interval: `pool_min - 1/2 ≤ pool ≤ pool_max + 1/2`; when both
bounds are integers this gives exactly `pool_min ≤ pool ≤ pool_max`, but
with non-integer bounds the rounding can leave `[pool_min, pool_max]`. -/
theorem C8_amended_pool_bounds (cfg : MmrConfig) (rows : List Row)
    (h : cfg.pool_min ≤ cfg.pool_max) :
    ∀ e ∈ calculate_ranked_mmr cfg rows,
      (((cfg.pool_min : ℚ) : ℝ) - 1 / 2 ≤ ((e.pool : ℤ) : ℝ) ∧
        ((e.pool : ℤ) : ℝ) ≤ ((cfg.pool_max : ℚ) : ℝ) + 1 / 2) ∧
      ∀ a b : ℤ, cfg.pool_min = (a : ℚ) → cfg.pool_max = (b : ℚ) →
        a ≤ e.pool ∧ e.pool ≤ b := by
  intro e he
  rw [calculate_mem_engine] at he
  obtain ⟨rt2, k, g, -, hin⟩ :=
    runGroups_mem cfg (groupsOf rows) (fun _ => cfg.initial_mmr) e he
  obtain ⟨hp, -, -, -⟩ := processGroup_events_shape cfg rt2 k g e hin
  have hb := poolOf_bounds cfg h (groupThLog cfg rt2 g) (groupKLog cfg k)
  rw [hp]
  unfold groupPool
  refine ⟨hb, ?_⟩
  intro a b ha hbnd
  have ha2 : ((cfg.pool_min : ℚ) : ℝ) = (a : ℝ) := by
    rw [ha]
    push_cast
    ring
  have hb2 : ((cfg.pool_max : ℚ) : ℝ) = (b : ℝ) := by
    rw [hbnd]
    push_cast
    ring
  rw [ha2] at hb
  rw [hb2] at hb
  constructor
  · have h3 : (a : ℝ) <
        ((poolOf cfg (groupThLog cfg rt2 g) (groupKLog cfg k) : ℤ) : ℝ) + 1 := by
      linarith [hb.1]
    have h4 : a < poolOf cfg (groupThLog cfg rt2 g) (groupKLog cfg k) + 1 := by
      exact_mod_cast h3
    omega
  · have h3 : ((poolOf cfg (groupThLog cfg rt2 g) (groupKLog cfg k) : ℤ) : ℝ) <
        (b : ℝ) + 1 := by
      linarith [hb.2]
    have h4 : poolOf cfg (groupThLog cfg rt2 g) (groupKLog cfg k) < b + 1 := by
      exact_mod_cast h3
    omega

theorem C8_amended_pool_bounds_witness :
    DEFAULT_MMR.pool_min ≤ DEFAULT_MMR.pool_max ∧
      (∀ e ∈ calculate_ranked_mmr DEFAULT_MMR exRows1v1,
        (((DEFAULT_MMR.pool_min : ℚ) : ℝ) - 1 / 2 ≤ ((e.pool : ℤ) : ℝ) ∧
          ((e.pool : ℤ) : ℝ) ≤ ((DEFAULT_MMR.pool_max : ℚ) : ℝ) + 1 / 2) ∧
        ∀ a b : ℤ, DEFAULT_MMR.pool_min = (a : ℚ) →
          DEFAULT_MMR.pool_max = (b : ℚ) → a ≤ e.pool ∧ e.pool ≤ b) :=
  ⟨by norm_num [DEFAULT_MMR],
    C8_amended_pool_bounds DEFAULT_MMR exRows1v1 (by norm_num [DEFAULT_MMR])⟩

/-! ## C5 -/

lemma groupsOf_C5a : groupsOf exRowsC5a = [(exKeyC5, exSortedC5a)] := by
  decide

lemma groupsOf_C5b : groupsOf exRowsC5b = [(exKeyC5, exSortedC5b)] := by
  decide

lemma _impact01_hundred : _impact01 100 ((((1 : ℚ)) : ℝ)) = 1 := by
  unfold _impact01
  rw [show ((100 : ℝ) + 100) / 200 = 1 by norm_num,
    clipF_eq_self (by norm_num) (by norm_num),
    show ((((1 : ℚ)) : ℝ)) = 1 by norm_num, Real.rpow_one]

lemma _impact01_neg_hundred : _impact01 (-100) ((((1 : ℚ)) : ℝ)) = 0 := by
  unfold _impact01
  rw [show ((-100 : ℝ) + 100) / 200 = 0 by norm_num,
    clipF_eq_self (by norm_num) (by norm_num),
    show ((((1 : ℚ)) : ℝ)) = 1 by norm_num, Real.rpow_one]

lemma meritRawOf_C5a : meritRawOf DEFAULT_MMR true [100, -100] = [1, 0] := by
  unfold meritRawOf
  simp only [List.map_cons, List.map_nil, if_true]
  rw [show ((DEFAULT_MMR.map_gamma : ℚ) : ℝ) = (((1 : ℚ)) : ℝ) by
    norm_num [DEFAULT_MMR]]
  rw [show (((100 : ℚ)) : ℝ) = 100 by norm_num,
    show (((-100 : ℚ)) : ℝ) = -100 by norm_num,
    _impact01_hundred, _impact01_neg_hundred]

lemma meritRawOf_C5b : meritRawOf DEFAULT_MMR true [-100, 100] = [0, 1] := by
  unfold meritRawOf
  simp only [List.map_cons, List.map_nil, if_true]
  rw [show ((DEFAULT_MMR.map_gamma : ℚ) : ℝ) = (((1 : ℚ)) : ℝ) by
    norm_num [DEFAULT_MMR]]
  rw [show (((100 : ℚ)) : ℝ) = 100 by norm_num,
    show (((-100 : ℚ)) : ℝ) = -100 by norm_num,
    _impact01_hundred, _impact01_neg_hundred]

lemma meritRawOf_DEFAULT_zero2 (w : Bool) :
    meritRawOf DEFAULT_MMR w [0, 0] = [1 / 2, 1 / 2] := by
  unfold meritRawOf
  simp only [List.map_cons, List.map_nil]
  have h0 : _impact01 (if w then (((0 : ℚ)) : ℝ) else (((-(0 : ℚ)) : ℚ) : ℝ))
      ((DEFAULT_MMR.map_gamma : ℚ) : ℝ) = 1 / 2 := by
    have hx : (if w then (((0 : ℚ)) : ℝ) else (((-(0 : ℚ)) : ℚ) : ℝ)) = 0 := by
      cases w <;> norm_num
    rw [hx, show ((DEFAULT_MMR.map_gamma : ℚ) : ℝ) = (((1 : ℚ)) : ℝ) by
      norm_num [DEFAULT_MMR]]
    exact _impact01_zero
  rw [h0]

lemma _normalize_one_zero : _normalize ([1, 0] : List ℝ) = [1, 0] := by
  unfold _normalize
  rw [if_neg (by norm_num)]
  norm_num

lemma _normalize_zero_one : _normalize ([0, 1] : List ℝ) = [0, 1] := by
  unfold _normalize
  rw [if_neg (by norm_num)]
  norm_num

lemma _normalize_half2 : _normalize ([1 / 2, 1 / 2] : List ℝ) =
    [1 / 2, 1 / 2] := by
  unfold _normalize
  rw [if_neg (by norm_num)]
  norm_num

lemma _normalize_nine_one : _normalize ([9 / 10, 1 / 10] : List ℝ) =
    [9 / 10, 1 / 10] := by
  unfold _normalize
  rw [if_neg (by norm_num)]
  norm_num

lemma _normalize_one_nine : _normalize ([1 / 10, 9 / 10] : List ℝ) =
    [1 / 10, 9 / 10] := by
  unfold _normalize
  rw [if_neg (by norm_num)]
  norm_num

lemma sharesW_C5a : _shares_winners [100, -100] DEFAULT_MMR =
    [9 / 10, 1 / 10] := by
  unfold _shares_winners
  rw [meritRawOf_C5a, _normalize_one_zero]
  simp only [List.map_cons, List.map_nil, List.length_cons, List.length_nil]
  norm_num [DEFAULT_MMR]

lemma sharesW_C5b : _shares_winners [-100, 100] DEFAULT_MMR =
    [1 / 10, 9 / 10] := by
  unfold _shares_winners
  rw [meritRawOf_C5b, _normalize_zero_one]
  simp only [List.map_cons, List.map_nil, List.length_cons, List.length_nil]
  norm_num [DEFAULT_MMR]

lemma sharesL_zero2 : _shares_losers [0, 0] DEFAULT_MMR = [1 / 2, 1 / 2] := by
  unfold _shares_losers
  rw [meritRawOf_DEFAULT_zero2, _normalize_half2]
  simp only [List.map_cons, List.map_nil, List.length_cons, List.length_nil]
  norm_num [DEFAULT_MMR]

lemma split_nine_one : _integer_split ([9 / 10, 1 / 10] : List ℝ) 50 [1, 0] =
    [45, 5] := by
  simp only [_integer_split]
  rw [_normalize_nine_one]
  norm_num

lemma split_one_nine : _integer_split ([1 / 10, 9 / 10] : List ℝ) 50 [0, 1] =
    [5, 45] := by
  simp only [_integer_split]
  rw [_normalize_one_nine]
  norm_num

lemma split_half2 : _integer_split ([1 / 2, 1 / 2] : List ℝ) 50
    [1 / 2, 1 / 2] = [25, 25] := by
  rw [@_integer_split_const ℝ _ _ [1 / 2, 1 / 2] [1 / 2, 1 / 2] (1 / 2) (1 / 2)
    (by simp) (by intro x hx; fin_cases hx <;> norm_num) (by simp)
    (by intro t ht; fin_cases ht <;> norm_num) 50]
  decide

lemma engine_C5a_eval : engineEvents DEFAULT_MMR exRowsC5a = exEventsC5a := by
  have hrad : radOf DEFAULT_MMR exSortedC5a =
      [⟨21, 0, 1800, 7, 7, "radiant", "bob", "radiant", 1, 100⟩,
       ⟨21, 0, 1800, 7, 7, "radiant", "bob", "radiant", 1, -100⟩] := by decide
  have hdire : direOf DEFAULT_MMR exSortedC5a =
      [⟨21, 0, 1800, 7, 7, "radiant", "carl", "dire", 1, 0⟩,
       ⟨21, 0, 1800, 7, 7, "radiant", "dave", "dire", 1, 0⟩] := by decide
  have hskip : ¬(radOf DEFAULT_MMR exSortedC5a = [] ∨
      direOf DEFAULT_MMR exSortedC5a = []) := by
    rw [hrad, hdire]
    simp
  have hR : groupR DEFAULT_MMR (fun _ => (DEFAULT_MMR.initial_mmr : ℤ))
      exSortedC5a = 2000 := by
    unfold groupR
    rw [hrad]
    unfold strengthOf _pos_mult
    simp only [List.map_cons, List.map_nil, List.sum_cons, List.sum_nil]
    norm_num [DEFAULT_MMR]
  have hD : groupD DEFAULT_MMR (fun _ => (DEFAULT_MMR.initial_mmr : ℤ))
      exSortedC5a = 2000 := by
    unfold groupD
    rw [hdire]
    unfold strengthOf _pos_mult
    simp only [List.map_cons, List.map_nil, List.sum_cons, List.sum_nil]
    norm_num [DEFAULT_MMR]
  have hthlog : groupThLog DEFAULT_MMR (fun _ => (DEFAULT_MMR.initial_mmr : ℤ))
      exSortedC5a = 0 := by
    unfold groupThLog
    rw [hR, hD]
    exact thLogOf_self DEFAULT_MMR (by norm_num [DEFAULT_MMR]) 2000 (by norm_num)
  have hklog : groupKLog DEFAULT_MMR exKeyC5 = 0 := kLogOf_equal DEFAULT_MMR 7 1800
  have hpool : groupPool DEFAULT_MMR (fun _ => (DEFAULT_MMR.initial_mmr : ℤ))
      exKeyC5 exSortedC5a = 50 := by
    unfold groupPool
    rw [hthlog, hklog]
    exact poolOf_DEFAULT_zero
  have hwin : groupWinRad DEFAULT_MMR exKeyC5 = true := by decide
  unfold engineEvents
  rw [groupsOf_C5a]
  simp only [runGroups, processGroup]
  rw [if_neg hskip, hrad, hdire, hpool, hthlog, hklog, hwin]
  simp only [List.map_cons, List.map_nil, Bool.not_true, if_true]
  rw [sharesW_C5a, sharesL_zero2, meritRawOf_C5a, meritRawOf_DEFAULT_zero2,
    split_nine_one, split_half2]
  simp only [List.zip_cons_cons, List.zip_nil_right, applyRoster,
    updateRating, List.append_nil]
  unfold exEventsC5a
  norm_num [DEFAULT_MMR, exKeyC5, show ("carl" : String) ≠ "bob" from by decide,
    show ("dave" : String) ≠ "carl" from by decide,
    show ("dave" : String) ≠ "bob" from by decide]

lemma engine_C5b_eval : engineEvents DEFAULT_MMR exRowsC5b = exEventsC5b := by
  have hrad : radOf DEFAULT_MMR exSortedC5b =
      [⟨21, 0, 1800, 7, 7, "radiant", "bob", "radiant", 1, -100⟩,
       ⟨21, 0, 1800, 7, 7, "radiant", "bob", "radiant", 1, 100⟩] := by decide
  have hdire : direOf DEFAULT_MMR exSortedC5b =
      [⟨21, 0, 1800, 7, 7, "radiant", "carl", "dire", 1, 0⟩,
       ⟨21, 0, 1800, 7, 7, "radiant", "dave", "dire", 1, 0⟩] := by decide
  have hskip : ¬(radOf DEFAULT_MMR exSortedC5b = [] ∨
      direOf DEFAULT_MMR exSortedC5b = []) := by
    rw [hrad, hdire]
    simp
  have hR : groupR DEFAULT_MMR (fun _ => (DEFAULT_MMR.initial_mmr : ℤ))
      exSortedC5b = 2000 := by
    unfold groupR
    rw [hrad]
    unfold strengthOf _pos_mult
    simp only [List.map_cons, List.map_nil, List.sum_cons, List.sum_nil]
    norm_num [DEFAULT_MMR]
  have hD : groupD DEFAULT_MMR (fun _ => (DEFAULT_MMR.initial_mmr : ℤ))
      exSortedC5b = 2000 := by
    unfold groupD
    rw [hdire]
    unfold strengthOf _pos_mult
    simp only [List.map_cons, List.map_nil, List.sum_cons, List.sum_nil]
    norm_num [DEFAULT_MMR]
  have hthlog : groupThLog DEFAULT_MMR (fun _ => (DEFAULT_MMR.initial_mmr : ℤ))
      exSortedC5b = 0 := by
    unfold groupThLog
    rw [hR, hD]
    exact thLogOf_self DEFAULT_MMR (by norm_num [DEFAULT_MMR]) 2000 (by norm_num)
  have hklog : groupKLog DEFAULT_MMR exKeyC5 = 0 := kLogOf_equal DEFAULT_MMR 7 1800
  have hpool : groupPool DEFAULT_MMR (fun _ => (DEFAULT_MMR.initial_mmr : ℤ))
      exKeyC5 exSortedC5b = 50 := by
    unfold groupPool
    rw [hthlog, hklog]
    exact poolOf_DEFAULT_zero
  have hwin : groupWinRad DEFAULT_MMR exKeyC5 = true := by decide
  unfold engineEvents
  rw [groupsOf_C5b]
  simp only [runGroups, processGroup]
  rw [if_neg hskip, hrad, hdire, hpool, hthlog, hklog, hwin]
  simp only [List.map_cons, List.map_nil, Bool.not_true, if_true]
  rw [sharesW_C5b, sharesL_zero2, meritRawOf_C5b, meritRawOf_DEFAULT_zero2,
    split_one_nine, split_half2]
  simp only [List.zip_cons_cons, List.zip_nil_right, applyRoster,
    updateRating, List.append_nil]
  unfold exEventsC5b
  norm_num [DEFAULT_MMR, exKeyC5, show ("carl" : String) ≠ "bob" from by decide,
    show ("dave" : String) ≠ "carl" from by decide,
    show ("dave" : String) ≠ "bob" from by decide]

/-- C5, counterexample: the two-run determinism fails across input
enumeration orders when two performance records share the full canonical
sort key.  `exRowsC5a` and `exRowsC5b` are permutations of one another
(the two same-key `bob` rows swapped), yet the output tables differ: the
stable canonical sort preserves the presented order of the tied rows, and
the ledger fold and the index tie-break depend on that order. -/
theorem C5_counterexample :
    exRowsC5b.Perm exRowsC5a ∧
      (calculate_ranked_mmr DEFAULT_MMR exRowsC5a).map Event.rating_after =
        [545, 550, 475, 475] ∧
      (calculate_ranked_mmr DEFAULT_MMR exRowsC5b).map Event.rating_after =
        [505, 550, 475, 475] := by
  refine ⟨?_, ?_, ?_⟩
  · unfold exRowsC5a exRowsC5b
    exact List.Perm.swap _ _ _
  · unfold calculate_ranked_mmr
    rw [engine_C5a_eval]
    have hs : List.Sorted evLe exEventsC5a := by decide
    rw [hs.insertionSort_eq]
    decide
  · unfold calculate_ranked_mmr
    rw [engine_C5b_eval]
    have hs : List.Sorted evLe exEventsC5b := by decide
    rw [hs.insertionSort_eq]
    decide

lemma v_mmr_ordered_eq_of_perm {rows1 rows2 : List Row}
    (hp : rows1.Perm rows2)
    (hinj : ∀ r1 ∈ rows1, ∀ r2 ∈ rows1,
      sortKeyRow r1 = sortKeyRow r2 → r1 = r2) :
    v_mmr_ordered rows1 = v_mmr_ordered rows2 := by
  apply eq_of_perm_of_sorted_of_antisymm (r := rowLe)
  · exact (List.perm_insertionSort rowLe _).trans
      ((hp.filter validRow).trans (List.perm_insertionSort rowLe _).symm)
  · exact List.sorted_insertionSort rowLe _
  · exact List.sorted_insertionSort rowLe _
  · intro a ha b hb h1 h2
    have ha2 : a ∈ rows1 :=
      List.mem_of_mem_filter ((List.perm_insertionSort rowLe _).subset ha)
    have hb2 : b ∈ rows1 :=
      List.mem_of_mem_filter ((List.perm_insertionSort rowLe _).subset hb)
    exact hinj a ha2 b hb2 (sortKeyRow_eq_of_antisymm h1 h2)

/-- C5 amended: the engine is a pure function of its input sequence, and
its output is independent of the enumeration order whenever no two
player-performance records share the whole canonical sort key
`(date_time, match_id, team, position)`; with duplicated keys (e.g. two
rows of one team at the same position of one match) the output may depend
on the presentation order of the tied rows. -/
theorem C5_amended_determinism (cfg : MmrConfig) (rows1 rows2 : List Row)
    (hp : rows1.Perm rows2)
    (hinj : ∀ r1 ∈ rows1, ∀ r2 ∈ rows1,
      sortKeyRow r1 = sortKeyRow r2 → r1 = r2) :
    calculate_ranked_mmr cfg rows1 = calculate_ranked_mmr cfg rows2 := by
  unfold calculate_ranked_mmr engineEvents groupsOf
  rw [v_mmr_ordered_eq_of_perm hp hinj]

theorem C5_amended_determinism_witness :
    (exRows1v1.Perm
        [⟨11, 0, 1800, 5, 5, "radiant", "bob", "dire", 1, 0⟩,
         ⟨11, 0, 1800, 5, 5, "radiant", "alice", "radiant", 1, 0⟩] ∧
      (∀ r1 ∈ exRows1v1, ∀ r2 ∈ exRows1v1,
        sortKeyRow r1 = sortKeyRow r2 → r1 = r2)) ∧
    calculate_ranked_mmr DEFAULT_MMR exRows1v1 =
      calculate_ranked_mmr DEFAULT_MMR
        [⟨11, 0, 1800, 5, 5, "radiant", "bob", "dire", 1, 0⟩,
         ⟨11, 0, 1800, 5, 5, "radiant", "alice", "radiant", 1, 0⟩] := by
  have hp : exRows1v1.Perm
      [⟨11, 0, 1800, 5, 5, "radiant", "bob", "dire", 1, 0⟩,
       ⟨11, 0, 1800, 5, 5, "radiant", "alice", "radiant", 1, 0⟩] := by
    unfold exRows1v1
    exact List.Perm.swap _ _ _
  have hinj : ∀ r1 ∈ exRows1v1, ∀ r2 ∈ exRows1v1,
      sortKeyRow r1 = sortKeyRow r2 → r1 = r2 := by decide
  exact ⟨⟨hp, hinj⟩, C5_amended_determinism DEFAULT_MMR _ _ hp hinj⟩

end RankedDoda
